import Mathlib

/-!
Verification development for the eddy / grapholed identity-inference
subsystem.

The central object is `Eddy.doNodeIdentification`, a shallow embedding of
the method of the same name in `src/eddy/core/diagram.py` (lines 541-686).
Node and edge kinds follow `eddy.core.datatypes.graphol.Item`, identities
follow `eddy.core.datatypes.graphol.Identity`.  The mutable per-node
`identity` field is represented as an explicit assignment `Nat → Identity`
keyed by node id; everything else about a node (its kind and its capability
set `identities()`) is static data.

Helper functions that diagram.py imports from modules not present in the
source tree (`eddy.core.functions.graph.bfs`,
`eddy.core.functions.misc.partition` / `first`, and the `AbstractNode`
methods `incomingNodes` / `outgoingNodes` / `setIdentity` / `identities`)
are modelled from the specification; each such definition carries a doc
comment saying so.

A second, independent part of the development embeds the identity property
of `ConceptNode` (src/eddy/core/items/nodes/concept.py) and `SquaredNode`
(src/eddy/core/items/nodes/common/square.py), and the cardinality-building
fragments of the OWL 2 exporter (src/eddy/core/exporters/owl2.py).
-/

namespace Eddy

/-- Semantic identity of a diagram node (eddy.core.datatypes.graphol.Identity). -/
inductive Identity where
  | Neutral
  | Concept
  | Role
  | Attribute
  | ValueDomain
  | Individual
  | Value
  | RoleInstance
  | AttributeInstance
  | Unknown
deriving DecidableEq, Repr

/-- Node and edge kinds (eddy.core.datatypes.graphol.Item). -/
inductive Item where
  | ConceptNode
  | RoleNode
  | AttributeNode
  | ValueDomainNode
  | IndividualNode
  | EnumerationNode
  | IntersectionNode
  | UnionNode
  | DisjointUnionNode
  | ComplementNode
  | DomainRestrictionNode
  | RangeRestrictionNode
  | PropertyAssertionNode
  | RoleChainNode
  | RoleInverseNode
  | FacetNode
  | InputEdge
  | InclusionEdge
  | EquivalenceEdge
  | MembershipEdge
deriving DecidableEq, Repr

/-- Static data of a diagram node: its id, its kind (`type()`), and its
capability set (`identities()`, the class-level `Identities` attribute).
The mutable `identity` field is kept outside, in an assignment
`Nat → Identity`. -/
structure Node where
  nid : Nat
  type : Item
  identities : List Identity
deriving DecidableEq, Repr

/-- An edge connects a `source` node to a `target` node and has a kind. -/
structure Edge where
  type : Item
  source : Nat
  target : Nat
deriving DecidableEq, Repr

/-- A diagram: the graph the resolver works on. -/
structure Diagram where
  nodes : List Node
  edges : List Edge
deriving DecidableEq, Repr

/-- Look a node up by its id. -/
def nodeById (d : Diagram) (i : Nat) : Option Node :=
  d.nodes.find? (fun n => n.nid == i)

/-- `Identity.Neutral in n.identities()`: the filter used both by the
traversal and by the partition in `doNodeIdentification`. -/
def neutralCapable (n : Node) : Bool :=
  n.identities.contains Identity.Neutral

/-- Ids of the nodes adjacent to node id `i` (edges followed in both
directions). -/
def neighbors (d : Diagram) (i : Nat) : List Nat :=
  d.edges.foldr
    (fun e acc =>
      if e.source == i then e.target :: acc
      else if e.target == i then e.source :: acc
      else acc)
    []

/-- Worker for `bfs`: `queue` holds node ids still to be handled, `visited`
the ids already handled, `acc` the collected nodes in reverse discovery
order.  A node failing `p` is collected but never expanded. -/
def bfsAux (d : Diagram) (p : Node → Bool) :
    Nat → List Nat → List Nat → List Node → List Node
  | 0, _, _, acc => acc.reverse
  | _ + 1, [], _, acc => acc.reverse
  | fuel + 1, i :: queue, visited, acc =>
    if visited.contains i then
      bfsAux d p fuel queue visited acc
    else
      match nodeById d i with
      | none => bfsAux d p fuel queue visited acc
      | some n =>
        if p n then
          bfsAux d p fuel
            (queue ++ (neighbors d i).filter (fun j => !(visited.contains j)))
            (i :: visited) (n :: acc)
        else
          bfsAux d p fuel queue (i :: visited) (n :: acc)

/-- Modelled from the spec: `eddy.core.functions.graph.bfs` is not under
src/.  Breadth-first traversal from `source` following edges in both
directions, expanding only through nodes that satisfy `filter_on_visit`.
A reached node that fails the filter is still collected (it acts as a
traversal boundary): the strong set built from the result must contain the
Individual-kind operands that the Enumeration and PropertyAssertion cases
of `doNodeIdentification` later discard from it, and those nodes are never
neutral-capable. -/
def bfs (d : Diagram) (source : Node) (filterOnVisit : Node → Bool) : List Node :=
  bfsAux d filterOnVisit (d.nodes.length + 2 * d.edges.length + 2)
    [source.nid] [] []

/-- Modelled from the spec: `eddy.core.functions.misc.partition` is not
under src/.  It splits an iterable by a predicate into the pair
(entries satisfying the predicate, entries not satisfying it); the call
site in `doNodeIdentification` binds `weak` to the first component and
`strong` to the second. -/
def partition (p : Node → Bool) (xs : List Node) : List Node × List Node :=
  (xs.filter p, xs.filter (fun x => !(p x)))

/-- Modelled from the spec: `AbstractNode.incomingNodes` is not under src/.
Operand nodes reached through edges whose target is `n`, with the edge and
node filters of the original (`filter_on_edges`, `filter_on_nodes`). -/
def incomingNodes (d : Diagram) (n : Node) (fe : Edge → Bool) (fn : Node → Bool) :
    List Node :=
  ((d.edges.filter (fun e => fe e && e.target == n.nid)).filterMap
    (fun e => nodeById d e.source)).filter fn

/-- Modelled from the spec: `AbstractNode.outgoingNodes` is not under src/.
Operand nodes reached through edges whose source is `n`. -/
def outgoingNodes (d : Diagram) (n : Node) (fe : Edge → Bool) (fn : Node → Bool) :
    List Node :=
  ((d.edges.filter (fun e => fe e && e.source == n.nid)).filterMap
    (fun e => nodeById d e.target)).filter fn

/-- Modelled from the spec: `AbstractNode.setIdentity` is not under src/.
The value actually stored when `setIdentity` is called with `i`: a value
outside the node's capability set is coerced to `Unknown` (spec §3
invariant: a node's identity is always a member of `identities()` or
`Unknown`). -/
def setIdentityVal (n : Node) (i : Identity) : Identity :=
  if n.identities.contains i then i else Identity.Unknown

/-- Apply `setIdentity` to the identity assignment. -/
def setIdentity (σ : Nat → Identity) (n : Node) (i : Identity) : Nat → Identity :=
  fun j => if j == n.nid then setIdentityVal n i else σ j

/-- Modelled from the spec: `eddy.core.functions.misc.first` over the set of
distinct identities, composed with the `if len(identities) > 1: Unknown`
correction of diagram.py.  Given the deduplicated list of identities:
empty ↦ `Neutral`, a single element ↦ that element, more ↦ `Unknown`. -/
def computedIdentity : List Identity → Identity
  | [] => Identity.Neutral
  | [i] => i
  | _ :: _ :: _ => Identity.Unknown

/-! Filters, converters and auxiliary functions of `doNodeIdentification`
(diagram.py lines 560-572).  Those that call `x.identity()` read the
current assignment `σ`. -/

/-- Filter f1: the edge is an Input edge. -/
def f1 (e : Edge) : Bool := e.type == Item.InputEdge

/-- Filter f2: the node kind is Individual. -/
def f2 (n : Node) : Bool := n.type == Item.IndividualNode

/-- Filter f3: the edge is a Membership edge. -/
def f3 (e : Edge) : Bool := e.type == Item.MembershipEdge

/-- Filter f4: the node's identity is Role, Attribute or Concept, and the
node is not neutral-capable. -/
def f4 (σ : Nat → Identity) (n : Node) : Bool :=
  (σ n.nid == Identity.Role || σ n.nid == Identity.Attribute
    || σ n.nid == Identity.Concept)
  && !(n.identities.contains Identity.Neutral)

/-- Filter f5: the node kind is Role, RoleInverse or Attribute. -/
def f5 (n : Node) : Bool :=
  n.type == Item.RoleNode || n.type == Item.RoleInverseNode
    || n.type == Item.AttributeNode

/-- Filter f6: the node kind is Individual. -/
def f6 (n : Node) : Bool := n.type == Item.IndividualNode

/-- Converter c1: Concept if the node's identity is Individual, else
ValueDomain. -/
def c1 (σ : Nat → Identity) (n : Node) : Identity :=
  if σ n.nid == Identity.Individual then Identity.Concept else Identity.ValueDomain

/-- Converter c2: Concept if the node's identity is Role or Concept, else
ValueDomain. -/
def c2 (σ : Nat → Identity) (n : Node) : Identity :=
  if σ n.nid == Identity.Role || σ n.nid == Identity.Concept then Identity.Concept
  else Identity.ValueDomain

/-- Converter c3: RoleInstance if the node's identity is Role, else
AttributeInstance. -/
def c3 (σ : Nat → Identity) (n : Node) : Identity :=
  if σ n.nid == Identity.Role then Identity.RoleInstance
  else Identity.AttributeInstance

/-- Auxiliary a1: the node's identity is Value. -/
def a1 (σ : Nat → Identity) (n : Node) : Bool :=
  σ n.nid == Identity.Value

/-- Working state of the special-case loop: the identity assignment and the
`strong` / `excluded` sets (as lists of node ids; Python uses sets of node
objects, which is the same thing given distinct node ids). -/
structure RState where
  σ : Nat → Identity
  strong : List Nat
  excluded : List Nat

/-- `set.add`: insert an id if not already present. -/
def addId (l : List Nat) (i : Nat) : List Nat :=
  if l.contains i then l else i :: l

/-- `set.discard`: remove an id. -/
def discardId (l : List Nat) (i : Nat) : List Nat :=
  l.filter (fun j => !(j == i))

/-- The ENUMERATION special case of `doNodeIdentification` (diagram.py
lines 576-602): map Individual-kind Input operands through c1, compute the
identity from the distinct mapped values, assign it, move the node to
`strong` when it resolved, and discard the consumed operands from
`strong`. -/
def enumerationCase (d : Diagram) (st : RState) (node : Node) : RState :=
  let collection := incomingNodes d node f1 f2
  let identities := (collection.map (c1 st.σ)).dedup
  let computed := computedIdentity identities
  let σ2 := setIdentity st.σ node computed
  let strong2 :=
    if σ2 node.nid == Identity.Neutral then st.strong else addId st.strong node.nid
  let strong3 := collection.foldl (fun s k => discardId s k.nid) strong2
  { σ := σ2, strong := strong3, excluded := st.excluded }

/-- The RANGE RESTRICTION special case of `doNodeIdentification`
(diagram.py lines 604-629): like the enumeration case but with operand
filter f4 and converter c2. -/
def rangeRestrictionCase (d : Diagram) (st : RState) (node : Node) : RState :=
  let collection := incomingNodes d node f1 (f4 st.σ)
  let identities := (collection.map (c2 st.σ)).dedup
  let computed := computedIdentity identities
  let σ2 := setIdentity st.σ node computed
  let strong2 :=
    if σ2 node.nid == Identity.Neutral then st.strong else addId st.strong node.nid
  let strong3 := collection.foldl (fun s k => discardId s k.nid) strong2
  { σ := σ2, strong := strong3, excluded := st.excluded }

/-- The PROPERTY ASSERTION special case of `doNodeIdentification`
(diagram.py lines 631-672): Membership-edge operands first, Input-edge
Individual operands second, unconditional exclusion, and discard of the
Individual operands from `strong`. -/
def propertyAssertionCase (d : Diagram) (st : RState) (node : Node) : RState :=
  let outgoing := outgoingNodes d node f3 f5
  let incoming := incomingNodes d node f1 f6
  let identities := (outgoing.map (c3 st.σ)).dedup
  let computed1 := computedIdentity identities
  let computed2 :=
    if computed1 == Identity.Neutral && decide (2 ≤ incoming.length) then
      (if incoming.any (a1 st.σ) then Identity.AttributeInstance
       else Identity.RoleInstance)
    else computed1
  let σ2 := setIdentity st.σ node computed2
  let excluded2 := addId st.excluded node.nid
  let strong2 := incoming.foldl (fun s k => discardId s k.nid) st.strong
  { σ := σ2, strong := strong2, excluded := excluded2 }

/-- Body of the `for node in weak` loop of `doNodeIdentification`
(diagram.py lines 574-672): dispatch on the node kind; any other node kind
is left untouched. -/
def processWeakNode (d : Diagram) (st : RState) (node : Node) : RState :=
  if node.type == Item.EnumerationNode then
    enumerationCase d st node
  else if node.type == Item.RangeRestrictionNode then
    rangeRestrictionCase d st node
  else if node.type == Item.PropertyAssertionNode then
    propertyAssertionCase d st node
  else st

/-- The collected set `C` of `doNodeIdentification`: the breadth-first
collection from the start node, expanding only through neutral-capable
nodes. -/
def collectionOf (d : Diagram) (start : Node) : List Node :=
  bfs d start neutralCapable

/-- The `weak` set: first component of the partition of the collection. -/
def weakOf (d : Diagram) (start : Node) : List Node :=
  (partition neutralCapable (collectionOf d start)).1

/-- The nodes of the initial `strong` set: second component of the
partition of the collection. -/
def strongNodesOf (d : Diagram) (start : Node) : List Node :=
  (partition neutralCapable (collectionOf d start)).2

/-- The initial resolver state: current identities, the initial `strong`
set, empty `excluded` set. -/
def initState (d : Diagram) (σ : Nat → Identity) (start : Node) : RState :=
  { σ := σ, strong := (strongNodesOf d start).map (·.nid), excluded := [] }

/-- The state after the special-case loop over the weak set. -/
def afterSpecial (d : Diagram) (σ : Nat → Identity) (start : Node) : RState :=
  (weakOf d start).foldl (processWeakNode d) (initState d σ start)

/-- The aggregate identity of diagram.py lines 678-683: computed from the
distinct identities of the nodes in the post-special-case strong set. -/
def aggregateOf (d : Diagram) (σ : Nat → Identity) (start : Node) : Identity :=
  computedIdentity (((afterSpecial d σ start).strong.map (afterSpecial d σ start).σ).dedup)

/-- The nodes receiving the aggregate identity: `weak - strong - excluded`
with strong and excluded as mutated by the special cases. -/
def finalTargets (d : Diagram) (σ : Nat → Identity) (start : Node) : List Node :=
  (weakOf d start).filter
    (fun n =>
      !((afterSpecial d σ start).strong.contains n.nid)
      && !((afterSpecial d σ start).excluded.contains n.nid))

/-- Shallow embedding of `Diagram.doNodeIdentification`
(src/eddy/core/diagram.py lines 541-686).  Takes the diagram, the current
identity assignment and the start node, and returns the updated
assignment. -/
def doNodeIdentification (d : Diagram) (σ : Nat → Identity) (node : Node) :
    Nat → Identity :=
  if Identity.Neutral ∈ node.identities then
    (finalTargets d σ node).foldl
      (fun s n => setIdentity s n (aggregateOf d σ node))
      (afterSpecial d σ node).σ
  else σ

/-! ## ConceptNode and SquaredNode identity property

Embedding of the `identity` property of `ConceptNode`
(src/eddy/core/items/nodes/concept.py lines 83-97) and of `SquaredNode`
(src/eddy/core/items/nodes/common/square.py lines 79-93).  In both classes
the getter returns `Identity.Concept` unconditionally and the setter body
is `pass`: it reads nothing and writes nothing.  The object state the
classes do manage (label text; restriction and cardinality for squared
nodes) is carried so the setter's no-op nature is visible. -/

/-- Restriction kinds of a squared node (eddy.core.datatypes.Restriction). -/
inductive Restriction where
  | Exists
  | Forall
  | Self
  | Cardinality
deriving DecidableEq, Repr

/-- Mutable state of a `ConceptNode` object apart from scene/graphics
plumbing. -/
structure ConceptNodeState where
  labelText : String
deriving DecidableEq, Repr

/-- Mutable state of a `SquaredNode` object apart from scene/graphics
plumbing. -/
structure SquaredNodeState where
  restriction : Restriction
  cardinalityMin : Option Nat
  cardinalityMax : Option Nat
deriving DecidableEq, Repr

namespace ConceptNode

/-- `ConceptNode.identity` getter: always returns `Identity.Concept`. -/
def identity (_s : ConceptNodeState) : Identity := Identity.Concept

/-- `ConceptNode.identity` setter: its body is `pass`; the state is
returned unchanged. -/
def identitySetter (s : ConceptNodeState) (_i : Identity) : ConceptNodeState := s

end ConceptNode

namespace SquaredNode

/-- `SquaredNode.identity` getter: always returns `Identity.Concept`. -/
def identity (_s : SquaredNodeState) : Identity := Identity.Concept

/-- `SquaredNode.identity` setter: its body is `pass`; the state is
returned unchanged. -/
def identitySetter (s : SquaredNodeState) (_i : Identity) : SquaredNodeState := s

end SquaredNode

/-! ## OWL 2 exporter: cardinality construction

Embedding of the cardinality-building fragments of
src/eddy/core/exporters/owl2.py: the `Restriction.Cardinality` arm of the
data-property (Attribute operand) branch of `getDomainRestriction`
(lines 649-661), of its object-property (Role operand) branch
(lines 688-699), and of the object-property branch of
`getRangeRestriction` (lines 830-840).  Each arm reads the node's min and
max cardinality and adds one OWL expression per present bound; the model
records which factory method builds each added expression. -/

/-- The OWL cardinality expressions the exporter can build, tagged by the
factory method used (`df.getOWL...Cardinality`). -/
inductive OWLCardinalityExpr where
  | dataMinCardinality (card : Nat)
  | dataMaxCardinality (card : Nat)
  | objectMinCardinality (card : Nat)
  | objectMaxCardinality (card : Nat)
deriving DecidableEq, Repr

/-- The cardinality expressions added in the data-property branch of
`getDomainRestriction` (owl2.py lines 649-661): the min bound is built
with `getOWLDataMinCardinality`, and the max bound is ALSO built with
`getOWLDataMinCardinality` (the code as written). -/
def getDomainRestrictionDataCardinalities (minCardinality maxCardinality : Option Nat) :
    List OWLCardinalityExpr :=
  (match minCardinality with
    | some m => [OWLCardinalityExpr.dataMinCardinality m]
    | none => []) ++
  (match maxCardinality with
    | some m => [OWLCardinalityExpr.dataMinCardinality m]
    | none => [])

/-- The cardinality expressions added in the object-property branch of
`getDomainRestriction` (owl2.py lines 688-699): min with
`getOWLObjectMinCardinality`, max with `getOWLObjectMaxCardinality`. -/
def getDomainRestrictionObjectCardinalities (minCardinality maxCardinality : Option Nat) :
    List OWLCardinalityExpr :=
  (match minCardinality with
    | some m => [OWLCardinalityExpr.objectMinCardinality m]
    | none => []) ++
  (match maxCardinality with
    | some m => [OWLCardinalityExpr.objectMaxCardinality m]
    | none => [])

/-- The cardinality expressions added in the object-property branch of
`getRangeRestriction` (owl2.py lines 830-840): min with
`getOWLObjectMinCardinality`, max with `getOWLObjectMaxCardinality`. -/
def getRangeRestrictionObjectCardinalities (minCardinality maxCardinality : Option Nat) :
    List OWLCardinalityExpr :=
  (match minCardinality with
    | some m => [OWLCardinalityExpr.objectMinCardinality m]
    | none => []) ++
  (match maxCardinality with
    | some m => [OWLCardinalityExpr.objectMaxCardinality m]
    | none => [])

/-! ## Concrete example diagrams

Small diagrams used by the witness and counterexample theorems below.
Capability sets follow the spec: operator nodes admit Neutral plus the
concrete identities they can resolve to; Individual nodes admit Individual
and Value; a Concept node admits only Concept. -/

/-- Capability set of a set-operator node (Union, Enumeration, ...). -/
def capsOperator : List Identity :=
  [Identity.Neutral, Identity.Concept, Identity.ValueDomain]

/-- Capability set of an Individual node. -/
def capsIndividual : List Identity := [Identity.Individual, Identity.Value]

/-- Capability set of a PropertyAssertion node. -/
def capsAssertion : List Identity :=
  [Identity.Neutral, Identity.RoleInstance, Identity.AttributeInstance]

/-- Example enumeration node. -/
def exEnum : Node := ⟨0, Item.EnumerationNode, capsOperator⟩

/-- Example individual nodes. -/
def exInd1 : Node := ⟨1, Item.IndividualNode, capsIndividual⟩

/-- Second example individual node. -/
def exInd2 : Node := ⟨2, Item.IndividualNode, capsIndividual⟩

/-- Enumeration with a single Individual-identity operand. -/
def exDiagramEnum : Diagram := ⟨[exEnum, exInd1], [⟨Item.InputEdge, 1, 0⟩]⟩

/-- Identity assignment for `exDiagramEnum`: the individual holds
Individual, everything else is Neutral. -/
def exSigmaEnum : Nat → Identity :=
  fun i => if i == 1 then Identity.Individual else Identity.Neutral

/-- Example union node. -/
def exUnion : Node := ⟨0, Item.UnionNode, capsOperator⟩

/-- A diagram holding only the union node. -/
def exDiagramUnion : Diagram := ⟨[exUnion], []⟩

/-- An assignment in which every node currently holds Concept. -/
def exSigmaConcept : Nat → Identity := fun _ => Identity.Concept

/-- Example concept node. -/
def exConcept : Node := ⟨1, Item.ConceptNode, [Identity.Concept]⟩

/-- Union node fed by a concept node over an Input edge. -/
def exDiagramUC : Diagram := ⟨[exUnion, exConcept], [⟨Item.InputEdge, 1, 0⟩]⟩

/-- Example range restriction node. -/
def exRange : Node := ⟨0, Item.RangeRestrictionNode, capsOperator⟩

/-- Example attribute node. -/
def exAttr : Node := ⟨1, Item.AttributeNode, [Identity.Attribute]⟩

/-- Range restriction fed by an attribute node over an Input edge. -/
def exDiagramRange : Diagram := ⟨[exRange, exAttr], [⟨Item.InputEdge, 1, 0⟩]⟩

/-- Identity assignment for `exDiagramRange`. -/
def exSigmaRange : Nat → Identity :=
  fun i => if i == 1 then Identity.Attribute else Identity.Neutral

/-- Example property assertion node. -/
def exAssertion : Node := ⟨0, Item.PropertyAssertionNode, capsAssertion⟩

/-- Property assertion with two Individual-identity Input operands and no
Membership edge. -/
def exDiagramPA : Diagram :=
  ⟨[exAssertion, exInd1, exInd2], [⟨Item.InputEdge, 1, 0⟩, ⟨Item.InputEdge, 2, 0⟩]⟩

/-- Identity assignment for `exDiagramPA`. -/
def exSigmaPA : Nat → Identity :=
  fun i => if i == 0 then Identity.Neutral else Identity.Individual

/-- Relation between the loop states of two resolver runs over the same
diagram and start node whose base assignments `σa`, `σb` agree outside the
weak-node ids: the strong and excluded sets coincide; every id either
already holds equal values in the two runs or is a still-untouched weak
id; and every strong id that is a weak id holds equal values.  Used to
prove that the resolver is insensitive to the values it is about to
overwrite (claim C8). -/
def PairInv (d : Diagram) (start : Node) (σa σb : Nat → Identity)
    (sa sb : RState) : Prop :=
  sa.strong = sb.strong
    ∧ sa.excluded = sb.excluded
    ∧ (∀ i, sa.σ i = sb.σ i
        ∨ ((∃ m ∈ weakOf d start, m.nid = i) ∧ sa.σ i = σa i ∧ sb.σ i = σb i))
    ∧ (∀ i ∈ sa.strong, (∃ m ∈ weakOf d start, m.nid = i) → sa.σ i = sb.σ i)

end Eddy

namespace Eddy

/-! ## Basic lemmas about the set and assignment primitives -/

theorem mem_addId (l : List Nat) (i j : Nat) :
    j ∈ addId l i ↔ j = i ∨ j ∈ l := by
  unfold addId
  by_cases h : l.contains i
  · rw [if_pos h]
    constructor
    · exact Or.inr
    · rintro (rfl | hj)
      · exact List.elem_iff.mp h
      · exact hj
  · rw [if_neg h]
    exact List.mem_cons

theorem mem_discardId (l : List Nat) (i j : Nat) :
    j ∈ discardId l i ↔ j ∈ l ∧ j ≠ i := by
  unfold discardId
  simp [List.mem_filter]

theorem mem_foldl_discard (coll : List Node) :
    ∀ (l : List Nat) (j : Nat),
      j ∈ coll.foldl (fun s k => discardId s k.nid) l
        ↔ j ∈ l ∧ ∀ k ∈ coll, j ≠ k.nid := by
  induction coll with
  | nil => intro l j; simp
  | cons k ks ih =>
    intro l j
    simp only [List.foldl_cons, ih, mem_discardId, List.mem_cons]
    constructor
    · rintro ⟨⟨hl, hk⟩, hks⟩
      exact ⟨hl, by rintro k' (rfl | hk') <;> [exact hk; exact hks k' hk']⟩
    · rintro ⟨hl, hall⟩
      exact ⟨⟨hl, hall k (Or.inl rfl)⟩, fun k' hk' => hall k' (Or.inr hk')⟩

theorem setIdentity_nid (σ : Nat → Identity) (n : Node) (i : Identity) :
    setIdentity σ n i n.nid = setIdentityVal n i := by
  simp [setIdentity]

theorem setIdentity_other (σ : Nat → Identity) (n : Node) (i : Identity)
    (j : Nat) (h : j ≠ n.nid) : setIdentity σ n i j = σ j := by
  simp [setIdentity, h]

theorem setIdentityVal_sound (n : Node) (i : Identity) :
    setIdentityVal n i ∈ n.identities ∨ setIdentityVal n i = Identity.Unknown := by
  unfold setIdentityVal
  by_cases h : i ∈ n.identities
  · rw [if_pos (List.elem_iff.mpr h)]
    exact Or.inl h
  · rw [if_neg (fun hc => h (List.elem_iff.mp hc))]
    exact Or.inr rfl

theorem setIdentityVal_mem (n : Node) (i : Identity) (h : i ∈ n.identities) :
    setIdentityVal n i = i := by
  unfold setIdentityVal
  rw [if_pos (List.elem_iff.mpr h)]

theorem setIdentityVal_unknown (n : Node) :
    setIdentityVal n Identity.Unknown = Identity.Unknown := by
  unfold setIdentityVal
  by_cases h : n.identities.contains Identity.Unknown
  · rw [if_pos h]
  · rw [if_neg h]

theorem computedIdentity_cases (ids : List Identity) :
    (ids = [] ∧ computedIdentity ids = Identity.Neutral)
      ∨ (∃ x, ids = [x] ∧ computedIdentity ids = x)
      ∨ (2 ≤ ids.length ∧ computedIdentity ids = Identity.Unknown) := by
  match ids with
  | [] => exact Or.inl ⟨rfl, rfl⟩
  | [x] => exact Or.inr (Or.inl ⟨x, rfl, rfl⟩)
  | x :: y :: rest =>
    exact Or.inr (Or.inr ⟨Nat.le_add_left 2 rest.length, rfl⟩)

/-! ## Lemmas about node lookup and operand collection -/

theorem nodeById_mem (d : Diagram) (i : Nat) (k : Node)
    (h : nodeById d i = some k) : k ∈ d.nodes ∧ k.nid = i := by
  unfold nodeById at h
  refine ⟨List.mem_of_find?_eq_some h, ?_⟩
  have := List.find?_some h
  exact beq_iff_eq.mp this

theorem mem_incomingNodes (d : Diagram) (n : Node) (fe : Edge → Bool)
    (fn : Node → Bool) (k : Node) :
    k ∈ incomingNodes d n fe fn
      ↔ (∃ e ∈ d.edges, fe e = true ∧ e.target = n.nid
            ∧ nodeById d e.source = some k)
        ∧ fn k = true := by
  unfold incomingNodes
  simp only [List.mem_filter, List.mem_filterMap, List.mem_filter,
    Bool.and_eq_true, beq_iff_eq]
  constructor
  · rintro ⟨⟨e, ⟨he, hfe, ht⟩, hk⟩, hfn⟩
    exact ⟨⟨e, he, hfe, ht, hk⟩, hfn⟩
  · rintro ⟨⟨e, he, hfe, ht, hk⟩, hfn⟩
    exact ⟨⟨e, ⟨he, hfe, ht⟩, hk⟩, hfn⟩

theorem mem_outgoingNodes (d : Diagram) (n : Node) (fe : Edge → Bool)
    (fn : Node → Bool) (k : Node) :
    k ∈ outgoingNodes d n fe fn
      ↔ (∃ e ∈ d.edges, fe e = true ∧ e.source = n.nid
            ∧ nodeById d e.target = some k)
        ∧ fn k = true := by
  unfold outgoingNodes
  simp only [List.mem_filter, List.mem_filterMap, List.mem_filter,
    Bool.and_eq_true, beq_iff_eq]
  constructor
  · rintro ⟨⟨e, ⟨he, hfe, ht⟩, hk⟩, hfn⟩
    exact ⟨⟨e, he, hfe, ht, hk⟩, hfn⟩
  · rintro ⟨⟨e, he, hfe, ht, hk⟩, hfn⟩
    exact ⟨⟨e, ⟨he, hfe, ht⟩, hk⟩, hfn⟩

theorem incomingNodes_mem_nodes (d : Diagram) (n : Node) (fe : Edge → Bool)
    (fn : Node → Bool) (k : Node) (h : k ∈ incomingNodes d n fe fn) :
    k ∈ d.nodes ∧ fn k = true := by
  rcases (mem_incomingNodes d n fe fn k).mp h with ⟨⟨e, _, _, _, hk⟩, hfn⟩
  exact ⟨(nodeById_mem d e.source k hk).1, hfn⟩

theorem outgoingNodes_mem_nodes (d : Diagram) (n : Node) (fe : Edge → Bool)
    (fn : Node → Bool) (k : Node) (h : k ∈ outgoingNodes d n fe fn) :
    k ∈ d.nodes ∧ fn k = true := by
  rcases (mem_outgoingNodes d n fe fn k).mp h with ⟨⟨e, _, _, _, hk⟩, hfn⟩
  exact ⟨(nodeById_mem d e.target k hk).1, hfn⟩

end Eddy

namespace Eddy

/-! ## Lemmas about the traversal and the partition -/

theorem bfsAux_sub_nodes (d : Diagram) (p : Node → Bool) :
    ∀ (fuel : Nat) (queue visited : List Nat) (acc : List Node),
      (∀ n ∈ acc, n ∈ d.nodes) →
      ∀ n ∈ bfsAux d p fuel queue visited acc, n ∈ d.nodes := by
  intro fuel
  induction fuel with
  | zero =>
    intro queue visited acc hacc n hn
    simp only [bfsAux] at hn
    exact hacc n (List.mem_reverse.mp hn)
  | succ fuel ih =>
    intro queue visited acc hacc n hn
    match queue with
    | [] =>
      simp only [bfsAux] at hn
      exact hacc n (List.mem_reverse.mp hn)
    | i :: queue' =>
      simp only [bfsAux] at hn
      by_cases hv : visited.contains i
      · rw [if_pos hv] at hn
        exact ih _ _ _ hacc n hn
      · rw [if_neg hv] at hn
        cases hfind : nodeById d i with
        | none =>
          rw [hfind] at hn
          exact ih _ _ _ hacc n hn
        | some m =>
          rw [hfind] at hn
          dsimp only at hn
          have hmEx : ∀ x ∈ m :: acc, x ∈ d.nodes := by
            intro x hx
            rcases List.mem_cons.mp hx with rfl | hx'
            · exact (nodeById_mem d i x hfind).1
            · exact hacc x hx'
          by_cases hp : p m
          · rw [if_pos hp] at hn
            exact ih _ _ _ hmEx n hn
          · rw [if_neg hp] at hn
            exact ih _ _ _ hmEx n hn

theorem bfsAux_nid_nodup (d : Diagram) (p : Node → Bool) :
    ∀ (fuel : Nat) (queue visited : List Nat) (acc : List Node),
      (∀ n ∈ acc, n.nid ∈ visited) →
      ((acc.map (fun n => n.nid)).Nodup) →
      (((bfsAux d p fuel queue visited acc).map (fun n => n.nid)).Nodup) := by
  intro fuel
  induction fuel with
  | zero =>
    intro queue visited acc _ hnd
    simp only [bfsAux]
    rw [List.map_reverse]
    exact List.nodup_reverse.mpr hnd
  | succ fuel ih =>
    intro queue visited acc hvis hnd
    match queue with
    | [] =>
      simp only [bfsAux]
      rw [List.map_reverse]
      exact List.nodup_reverse.mpr hnd
    | i :: queue' =>
      simp only [bfsAux]
      by_cases hv : visited.contains i
      · rw [if_pos hv]
        exact ih _ _ _ hvis hnd
      · rw [if_neg hv]
        cases hfind : nodeById d i with
        | none => exact ih _ _ _ hvis hnd
        | some m =>
          dsimp only
          have hmi : m.nid = i := (nodeById_mem d i m hfind).2
          have hvis' : ∀ x ∈ m :: acc, x.nid ∈ i :: visited := by
            intro x hx
            rcases List.mem_cons.mp hx with rfl | hx'
            · exact List.mem_cons.mpr (Or.inl hmi)
            · exact List.mem_cons.mpr (Or.inr (hvis x hx'))
          have hnd' : ((m :: acc).map (fun n => n.nid)).Nodup := by
            rw [List.map_cons]
            refine List.nodup_cons.mpr ⟨?_, hnd⟩
            intro hmem
            rcases List.mem_map.mp hmem with ⟨x, hx, hxeq⟩
            have : m.nid ∈ visited := hxeq ▸ hvis x hx
            rw [hmi] at this
            exact hv (List.elem_iff.mpr this)
          by_cases hp : p m
          · rw [if_pos hp]
            exact ih _ _ _ hvis' hnd'
          · rw [if_neg hp]
            exact ih _ _ _ hvis' hnd'

theorem mem_collectionOf_mem_nodes (d : Diagram) (start : Node) (n : Node)
    (h : n ∈ collectionOf d start) : n ∈ d.nodes := by
  unfold collectionOf bfs at h
  exact bfsAux_sub_nodes d neutralCapable _ _ _ [] (by intro x hx; cases hx) n h

theorem collectionOf_nid_nodup (d : Diagram) (start : Node) :
    ((collectionOf d start).map (fun n => n.nid)).Nodup := by
  unfold collectionOf bfs
  exact bfsAux_nid_nodup d neutralCapable _ _ _ [] (by intro x hx; cases hx)
    List.nodup_nil

theorem mem_weakOf (d : Diagram) (start : Node) (n : Node) :
    n ∈ weakOf d start
      ↔ n ∈ collectionOf d start ∧ neutralCapable n = true := by
  unfold weakOf partition
  exact List.mem_filter

theorem mem_strongNodesOf (d : Diagram) (start : Node) (n : Node) :
    n ∈ strongNodesOf d start
      ↔ n ∈ collectionOf d start ∧ neutralCapable n = false := by
  unfold strongNodesOf partition
  rw [List.mem_filter]
  simp [Bool.not_eq_true']

theorem weakOf_nid_nodup (d : Diagram) (start : Node) :
    ((weakOf d start).map (fun n => n.nid)).Nodup := by
  have hsub : List.Sublist (weakOf d start) (collectionOf d start) := by
    unfold weakOf partition
    exact List.filter_sublist _
  exact List.Nodup.sublist (hsub.map _) (collectionOf_nid_nodup d start)

theorem collection_nid_inj (d : Diagram) (start : Node) (m n : Node)
    (hm : m ∈ collectionOf d start) (hn : n ∈ collectionOf d start)
    (h : m.nid = n.nid) : m = n :=
  List.inj_on_of_nodup_map (collectionOf_nid_nodup d start) hm hn h

theorem nodes_nid_inj (d : Diagram) (hnodup : (d.nodes.map (fun n => n.nid)).Nodup)
    (m n : Node) (hm : m ∈ d.nodes) (hn : n ∈ d.nodes) (h : m.nid = n.nid) :
    m = n :=
  List.inj_on_of_nodup_map hnodup hm hn h

end Eddy

namespace Eddy

/-! ## Frame and soundness lemmas for the resolver -/

theorem processWeakNode_σ_cases (d : Diagram) (st : RState) (n : Node) (j : Nat) :
    (processWeakNode d st n).σ j = st.σ j
      ∨ (j = n.nid ∧ ∃ v, (processWeakNode d st n).σ j = setIdentityVal n v) := by
  unfold processWeakNode
  by_cases h1 : n.type == Item.EnumerationNode
  · rw [if_pos h1]
    unfold enumerationCase
    by_cases hj : j = n.nid
    · subst hj
      exact Or.inr ⟨rfl, _, setIdentity_nid st.σ n _⟩
    · exact Or.inl (setIdentity_other st.σ n _ j hj)
  · rw [if_neg h1]
    by_cases h2 : n.type == Item.RangeRestrictionNode
    · rw [if_pos h2]
      unfold rangeRestrictionCase
      by_cases hj : j = n.nid
      · subst hj
        exact Or.inr ⟨rfl, _, setIdentity_nid st.σ n _⟩
      · exact Or.inl (setIdentity_other st.σ n _ j hj)
    · rw [if_neg h2]
      by_cases h3 : n.type == Item.PropertyAssertionNode
      · rw [if_pos h3]
        unfold propertyAssertionCase
        by_cases hj : j = n.nid
        · subst hj
          exact Or.inr ⟨rfl, _, setIdentity_nid st.σ n _⟩
        · exact Or.inl (setIdentity_other st.σ n _ j hj)
      · rw [if_neg h3]
        exact Or.inl rfl

theorem foldl_process_sound (d : Diagram) (W : List Node) :
    ∀ (st : RState) (j : Nat),
      (W.foldl (processWeakNode d) st).σ j = st.σ j
        ∨ ∃ m ∈ W, m.nid = j
            ∧ ∃ v, (W.foldl (processWeakNode d) st).σ j = setIdentityVal m v := by
  induction W with
  | nil => intro st j; exact Or.inl rfl
  | cons a W ih =>
    intro st j
    rw [List.foldl_cons]
    rcases ih (processWeakNode d st a) j with h | ⟨m, hm, hj, v, hv⟩
    · rcases processWeakNode_σ_cases d st a j with h2 | ⟨hj, v, hv⟩
      · exact Or.inl (h.trans h2)
      · exact Or.inr ⟨a, List.mem_cons_self a W, hj.symm, v, h.trans hv⟩
    · exact Or.inr ⟨m, List.mem_cons_of_mem a hm, hj, v, hv⟩

theorem foldl_process_frame (d : Diagram) (W : List Node) (st : RState) (j : Nat)
    (h : ∀ m ∈ W, m.nid ≠ j) :
    (W.foldl (processWeakNode d) st).σ j = st.σ j := by
  rcases foldl_process_sound d W st j with h1 | ⟨m, hm, hj, _, _⟩
  · exact h1
  · exact absurd hj (h m hm)

theorem afterSpecial_sound (d : Diagram) (σ : Nat → Identity) (start : Node)
    (j : Nat) :
    (afterSpecial d σ start).σ j = σ j
      ∨ ∃ m ∈ weakOf d start, m.nid = j
          ∧ ∃ v, (afterSpecial d σ start).σ j = setIdentityVal m v := by
  unfold afterSpecial
  exact foldl_process_sound d (weakOf d start) (initState d σ start) j

theorem afterSpecial_frame (d : Diagram) (σ : Nat → Identity) (start : Node)
    (j : Nat) (h : ∀ m ∈ weakOf d start, m.nid ≠ j) :
    (afterSpecial d σ start).σ j = σ j := by
  unfold afterSpecial initState
  exact foldl_process_frame d (weakOf d start) _ j h

theorem foldl_setIdentity_sound (v : Identity) (L : List Node) :
    ∀ (σ0 : Nat → Identity) (j : Nat),
      (L.foldl (fun s n => setIdentity s n v) σ0) j = σ0 j
        ∨ ∃ m ∈ L, m.nid = j
            ∧ (L.foldl (fun s n => setIdentity s n v) σ0) j = setIdentityVal m v := by
  induction L with
  | nil => intro σ0 j; exact Or.inl rfl
  | cons a L ih =>
    intro σ0 j
    rw [List.foldl_cons]
    rcases ih (setIdentity σ0 a v) j with h | ⟨m, hm, hj, hv⟩
    · by_cases hj : j = a.nid
      · subst hj
        exact Or.inr ⟨a, List.mem_cons_self a L, rfl, h.trans (setIdentity_nid σ0 a v)⟩
      · exact Or.inl (h.trans (setIdentity_other σ0 a v j hj))
    · exact Or.inr ⟨m, List.mem_cons_of_mem a hm, hj, hv⟩

theorem foldl_setIdentity_frame (v : Identity) (L : List Node)
    (σ0 : Nat → Identity) (j : Nat) (h : ∀ m ∈ L, m.nid ≠ j) :
    (L.foldl (fun s n => setIdentity s n v) σ0) j = σ0 j := by
  rcases foldl_setIdentity_sound v L σ0 j with h1 | ⟨m, hm, hj, _⟩
  · exact h1
  · exact absurd hj (h m hm)

theorem foldl_setIdentity_write (v : Identity) (L : List Node)
    (hnd : (L.map (fun n => n.nid)).Nodup) :
    ∀ (σ0 : Nat → Identity) (n : Node), n ∈ L →
      (L.foldl (fun s m => setIdentity s m v) σ0) n.nid = setIdentityVal n v := by
  induction L with
  | nil => intro σ0 n h; cases h
  | cons a L ih =>
    intro σ0 n hn
    rw [List.foldl_cons]
    rw [List.map_cons] at hnd
    have hnd' := List.nodup_cons.mp hnd
    rcases List.mem_cons.mp hn with rfl | hn'
    · have hfr : ∀ m ∈ L, m.nid ≠ n.nid := by
        intro m hm heq
        exact hnd'.1 (List.mem_map.mpr ⟨m, hm, heq⟩)
      rw [foldl_setIdentity_frame v L _ n.nid hfr]
      exact setIdentity_nid σ0 n v
    · exact ih hnd'.2 _ n hn'

theorem mem_finalTargets (d : Diagram) (σ : Nat → Identity) (start : Node)
    (n : Node) :
    n ∈ finalTargets d σ start
      ↔ n ∈ weakOf d start
        ∧ n.nid ∉ (afterSpecial d σ start).strong
        ∧ n.nid ∉ (afterSpecial d σ start).excluded := by
  unfold finalTargets
  simp only [List.mem_filter, Bool.and_eq_true_iff, Bool.not_eq_true']
  constructor
  · rintro ⟨hw, hs, he⟩
    refine ⟨hw, ?_, ?_⟩
    · intro hmem
      have h' : (afterSpecial d σ start).strong.contains n.nid = true :=
        List.elem_iff.mpr hmem
      rw [h'] at hs
      cases hs
    · intro hmem
      have h' : (afterSpecial d σ start).excluded.contains n.nid = true :=
        List.elem_iff.mpr hmem
      rw [h'] at he
      cases he
  · rintro ⟨hw, hs, he⟩
    refine ⟨hw, ?_, ?_⟩
    · rw [Bool.eq_false_iff]
      intro hc
      exact hs (List.elem_iff.mp hc)
    · rw [Bool.eq_false_iff]
      intro hc
      exact he (List.elem_iff.mp hc)

theorem finalTargets_sub_weak (d : Diagram) (σ : Nat → Identity) (start : Node)
    (n : Node) (h : n ∈ finalTargets d σ start) : n ∈ weakOf d start :=
  ((mem_finalTargets d σ start n).mp h).1

theorem doNodeIdentification_sound (d : Diagram) (σ : Nat → Identity)
    (start : Node) (j : Nat) :
    doNodeIdentification d σ start j = σ j
      ∨ ∃ m ∈ weakOf d start, m.nid = j
          ∧ ∃ v, doNodeIdentification d σ start j = setIdentityVal m v := by
  unfold doNodeIdentification
  by_cases hg : Identity.Neutral ∈ start.identities
  · rw [if_pos hg]
    rcases foldl_setIdentity_sound (aggregateOf d σ start) (finalTargets d σ start)
        (afterSpecial d σ start).σ j with h | ⟨m, hm, hj, hv⟩
    · rcases afterSpecial_sound d σ start j with h2 | ⟨m, hm, hj, v, hv⟩
      · exact Or.inl (h.trans h2)
      · exact Or.inr ⟨m, hm, hj, v, h.trans hv⟩
    · exact Or.inr ⟨m, finalTargets_sub_weak d σ start m hm, hj,
        aggregateOf d σ start, hv⟩
  · rw [if_neg hg]
    exact Or.inl rfl

theorem doNodeIdentification_frame (d : Diagram) (σ : Nat → Identity)
    (start : Node) (j : Nat) (h : ∀ m ∈ weakOf d start, m.nid ≠ j) :
    doNodeIdentification d σ start j = σ j := by
  rcases doNodeIdentification_sound d σ start j with h1 | ⟨m, hm, hj, _, _⟩
  · exact h1
  · exact absurd hj (h m hm)

end Eddy

namespace Eddy

/-! ## Claim C10: ConceptNode / SquaredNode identity immutability -/

theorem foldl_conceptSetter (s : ConceptNodeState) (l : List Identity) :
    l.foldl ConceptNode.identitySetter s = s := by
  induction l with
  | nil => rfl
  | cons a l ih =>
    rw [List.foldl_cons]
    exact ih

theorem foldl_squaredSetter (t : SquaredNodeState) (l : List Identity) :
    l.foldl SquaredNode.identitySetter t = t := by
  induction l with
  | nil => rfl
  | cons a l ih =>
    rw [List.foldl_cons]
    exact ih

/-- Claim C10: for every ConceptNode and every SquaredNode, reading the
identity property always returns Identity.Concept, and assigning any
sequence of values through the identity setter is a no-op on the object
state, so no caller can ever change the identity of such a node. -/
theorem conceptAndSquaredIdentityImmutable (s : ConceptNodeState)
    (t : SquaredNodeState) (l : List Identity) :
    ConceptNode.identity (l.foldl ConceptNode.identitySetter s) = Identity.Concept
      ∧ l.foldl ConceptNode.identitySetter s = s
      ∧ SquaredNode.identity (l.foldl SquaredNode.identitySetter t) = Identity.Concept
      ∧ l.foldl SquaredNode.identitySetter t = t :=
  ⟨rfl, foldl_conceptSetter s l, rfl, foldl_squaredSetter t l⟩

/-! ## Claim C9: cardinality factory selection in the OWL exporter -/

/-- Claim C9 counterexample: the claim says the Min-cardinality factory is
used for the max bound in the object-property branches too, but with only
a max bound of 1 both object-property branches build the expression with
the Max-cardinality factory. -/
theorem objectMaxBuiltWithMaxFactory :
    getDomainRestrictionObjectCardinalities none (some 1)
        = [OWLCardinalityExpr.objectMaxCardinality 1]
      ∧ getRangeRestrictionObjectCardinalities none (some 1)
        = [OWLCardinalityExpr.objectMaxCardinality 1]
      ∧ OWLCardinalityExpr.objectMaxCardinality 1
          ≠ OWLCardinalityExpr.objectMinCardinality 1 := by
  refine ⟨rfl, rfl, ?_⟩
  decide

/-- Claim C9 (amended): only the data-property branch of
getDomainRestriction uses the Min-cardinality factory for both bounds:
when a max cardinality is set there, the added expression is built with
getOWLDataMinCardinality; in the object-property branches of
getDomainRestriction and getRangeRestriction the min bound uses the Min
factory and the max bound the Max factory. -/
theorem cardinalityFactorySelection (mn : Option Nat) (m : Nat) :
    (getDomainRestrictionDataCardinalities (some m) mn
        = OWLCardinalityExpr.dataMinCardinality m
            :: getDomainRestrictionDataCardinalities none mn)
      ∧ (getDomainRestrictionDataCardinalities mn (some m)
          = getDomainRestrictionDataCardinalities mn none
              ++ [OWLCardinalityExpr.dataMinCardinality m])
      ∧ (getDomainRestrictionObjectCardinalities (some m) mn
          = OWLCardinalityExpr.objectMinCardinality m
              :: getDomainRestrictionObjectCardinalities none mn)
      ∧ (getDomainRestrictionObjectCardinalities mn (some m)
          = getDomainRestrictionObjectCardinalities mn none
              ++ [OWLCardinalityExpr.objectMaxCardinality m])
      ∧ (getRangeRestrictionObjectCardinalities (some m) mn
          = OWLCardinalityExpr.objectMinCardinality m
              :: getRangeRestrictionObjectCardinalities none mn)
      ∧ (getRangeRestrictionObjectCardinalities mn (some m)
          = getRangeRestrictionObjectCardinalities mn none
              ++ [OWLCardinalityExpr.objectMaxCardinality m]) := by
  cases mn <;> exact ⟨rfl, rfl, rfl, rfl, rfl, rfl⟩

/-! ## Claim C1: the weak / strong partition -/

/-- Claim C1 counterexample: the union node of `exDiagramUnion` currently
holds identity Concept (not Neutral), so the claim places it in the strong
set; the code places it in the weak set and not in the strong set, because
the partition predicate tests neutral-capability, not the current
identity. -/
theorem partitionByCurrentIdentity_cex :
    exSigmaConcept exUnion.nid = Identity.Concept
      ∧ exSigmaConcept exUnion.nid ≠ Identity.Neutral
      ∧ exUnion ∈ collectionOf exDiagramUnion exUnion
      ∧ exUnion ∈ weakOf exDiagramUnion exUnion
      ∧ exUnion ∉ strongNodesOf exDiagramUnion exUnion := by
  refine ⟨rfl, by decide, by decide, by decide, by decide⟩

/-- Claim C1 (amended): after the breadth-first collection, the collected
set is partitioned by neutral-capability rather than by current identity:
every collected node whose capability set contains Neutral is placed in
the weak set, every other collected node in the strong set, and every
collected node lies in exactly one of the two sets. -/
theorem collectionPartitionByCapability (d : Diagram) (start : Node) (n : Node)
    (h : n ∈ collectionOf d start) :
    (n ∈ weakOf d start ↔ neutralCapable n = true)
      ∧ (n ∈ strongNodesOf d start ↔ neutralCapable n = false)
      ∧ (n ∈ weakOf d start ∨ n ∈ strongNodesOf d start)
      ∧ ¬(n ∈ weakOf d start ∧ n ∈ strongNodesOf d start) := by
  refine ⟨?_, ?_, ?_, ?_⟩
  · rw [mem_weakOf]
    exact ⟨fun hh => hh.2, fun hc => ⟨h, hc⟩⟩
  · rw [mem_strongNodesOf]
    exact ⟨fun hh => hh.2, fun hc => ⟨h, hc⟩⟩
  · cases hc : neutralCapable n
    · exact Or.inr ((mem_strongNodesOf d start n).mpr ⟨h, hc⟩)
    · exact Or.inl ((mem_weakOf d start n).mpr ⟨h, hc⟩)
  · rintro ⟨hw, hs⟩
    have h1 := ((mem_weakOf d start n).mp hw).2
    have h2 := ((mem_strongNodesOf d start n).mp hs).2
    rw [h1] at h2
    cases h2

/-- Claim C1 (amended) witness: in the enumeration example the individual
node is collected and classified by capability. -/
theorem collectionPartitionByCapability_witness :
    exInd1 ∈ collectionOf exDiagramEnum exEnum
      ∧ (exInd1 ∈ strongNodesOf exDiagramEnum exEnum
          ↔ neutralCapable exInd1 = false) := by
  have hmem : exInd1 ∈ collectionOf exDiagramEnum exEnum := by decide
  exact ⟨hmem,
    (collectionPartitionByCapability exDiagramEnum exEnum exInd1 hmem).2.1⟩

/-! ## Claim C7: frame of the resolver -/

/-- Claim C7 counterexample: the Concept node of `exDiagramUC` is not
neutral-capable, yet it IS collected into C by the traversal (landing in
the strong set), contrary to the claim that such a node is never added to
C; its identity is nevertheless left unchanged. -/
theorem boundaryNodeCollected_cex :
    neutralCapable exConcept = false
      ∧ exConcept ∈ collectionOf exDiagramUC exUnion
      ∧ exConcept ∈ strongNodesOf exDiagramUC exUnion
      ∧ doNodeIdentification exDiagramUC exSigmaConcept exUnion exConcept.nid
          = exSigmaConcept exConcept.nid := by
  refine ⟨rfl, by decide, by decide, by decide⟩

/-- Claim C7 (amended): the resolver mutates only the identity assignment
(the diagram structure is not part of its result); when the start node is
not neutral-capable it is a no-op; every weak node is neutral-capable; and
although a non-neutral-capable node reached by the traversal is collected
(into the strong set), its identity is never changed. -/
theorem resolveFrame (d : Diagram) (σ : Nat → Identity) (start : Node) :
    (Identity.Neutral ∉ start.identities →
        ∀ i, doNodeIdentification d σ start i = σ i)
      ∧ (∀ m ∈ weakOf d start, neutralCapable m = true)
      ∧ (∀ n ∈ d.nodes, (d.nodes.map (fun x => x.nid)).Nodup →
          neutralCapable n = false →
          doNodeIdentification d σ start n.nid = σ n.nid) := by
  refine ⟨?_, ?_, ?_⟩
  · intro hg i
    unfold doNodeIdentification
    rw [if_neg hg]
  · intro m hm
    exact ((mem_weakOf d start m).mp hm).2
  · intro n hn hnodup hcap
    apply doNodeIdentification_frame
    intro m hm heq
    have hmc := (mem_weakOf d start m).mp hm
    have hmem := mem_collectionOf_mem_nodes d start m hmc.1
    have hmn : m = n := nodes_nid_inj d hnodup m n hmem hn heq
    rw [hmn] at hmc
    rw [hmc.2] at hcap
    cases hcap

/-- Claim C7 (amended) witness: the no-op clause at a non-neutral-capable
start node, and the untouched-identity clause for the concept node of the
union-concept example. -/
theorem resolveFrame_witness :
    doNodeIdentification exDiagramUC exSigmaConcept exConcept 0
        = exSigmaConcept 0
      ∧ doNodeIdentification exDiagramUC exSigmaConcept exUnion exConcept.nid
        = exSigmaConcept exConcept.nid := by
  constructor
  · exact (resolveFrame exDiagramUC exSigmaConcept exConcept).1 (by decide) 0
  · exact (resolveFrame exDiagramUC exSigmaConcept exUnion).2.2 exConcept
      (by decide) (by decide) (by decide)

end Eddy

namespace Eddy

/-! ## Equation lemmas for the special-case branches -/

theorem enumerationCase_σ (d : Diagram) (st : RState) (n : Node) :
    (enumerationCase d st n).σ
      = setIdentity st.σ n
          (computedIdentity (((incomingNodes d n f1 f2).map (c1 st.σ)).dedup)) := rfl

theorem enumerationCase_strong (d : Diagram) (st : RState) (n : Node) :
    (enumerationCase d st n).strong
      = (incomingNodes d n f1 f2).foldl (fun s k => discardId s k.nid)
          (if (enumerationCase d st n).σ n.nid == Identity.Neutral then st.strong
           else addId st.strong n.nid) := rfl

theorem rangeRestrictionCase_σ (d : Diagram) (st : RState) (n : Node) :
    (rangeRestrictionCase d st n).σ
      = setIdentity st.σ n
          (computedIdentity
            (((incomingNodes d n f1 (f4 st.σ)).map (c2 st.σ)).dedup)) := rfl

theorem rangeRestrictionCase_strong (d : Diagram) (st : RState) (n : Node) :
    (rangeRestrictionCase d st n).strong
      = (incomingNodes d n f1 (f4 st.σ)).foldl (fun s k => discardId s k.nid)
          (if (rangeRestrictionCase d st n).σ n.nid == Identity.Neutral then st.strong
           else addId st.strong n.nid) := rfl

/-- The identity the property-assertion case computes before assignment:
the Membership-edge step, then the Input-edge step only when the first
step yielded Neutral. -/
def propertyAssertionComputed (d : Diagram) (σ : Nat → Identity) (n : Node) :
    Identity :=
  if computedIdentity (((outgoingNodes d n f3 f5).map (c3 σ)).dedup)
        == Identity.Neutral
      && decide (2 ≤ (incomingNodes d n f1 f6).length) then
    (if (incomingNodes d n f1 f6).any (a1 σ) then Identity.AttributeInstance
     else Identity.RoleInstance)
  else computedIdentity (((outgoingNodes d n f3 f5).map (c3 σ)).dedup)

theorem propertyAssertionCase_σ (d : Diagram) (st : RState) (n : Node) :
    (propertyAssertionCase d st n).σ
      = setIdentity st.σ n (propertyAssertionComputed d st.σ n) := rfl

theorem propertyAssertionCase_strong (d : Diagram) (st : RState) (n : Node) :
    (propertyAssertionCase d st n).strong
      = (incomingNodes d n f1 f6).foldl (fun s k => discardId s k.nid)
          st.strong := rfl

theorem propertyAssertionCase_excluded (d : Diagram) (st : RState) (n : Node) :
    (propertyAssertionCase d st n).excluded = addId st.excluded n.nid := rfl

theorem processWeakNode_enumeration (d : Diagram) (st : RState) (n : Node)
    (h : n.type = Item.EnumerationNode) :
    processWeakNode d st n = enumerationCase d st n := by
  unfold processWeakNode
  rw [if_pos (beq_iff_eq.mpr h)]

theorem processWeakNode_rangeRestriction (d : Diagram) (st : RState) (n : Node)
    (h : n.type = Item.RangeRestrictionNode) :
    processWeakNode d st n = rangeRestrictionCase d st n := by
  unfold processWeakNode
  rw [if_neg (by rw [h]; decide), if_pos (beq_iff_eq.mpr h)]

theorem processWeakNode_propertyAssertion (d : Diagram) (st : RState) (n : Node)
    (h : n.type = Item.PropertyAssertionNode) :
    processWeakNode d st n = propertyAssertionCase d st n := by
  unfold processWeakNode
  rw [if_neg (by rw [h]; decide), if_neg (by rw [h]; decide),
    if_pos (beq_iff_eq.mpr h)]

theorem setIdentityVal_ne_neutral (n : Node) (i : Identity)
    (h : i ≠ Identity.Neutral) : setIdentityVal n i ≠ Identity.Neutral := by
  unfold setIdentityVal
  by_cases hc : n.identities.contains i
  · rw [if_pos hc]
    exact h
  · rw [if_neg hc]
    decide

theorem c1_range (σ : Nat → Identity) (k : Node) :
    c1 σ k = Identity.Concept ∨ c1 σ k = Identity.ValueDomain := by
  unfold c1
  by_cases h : σ k.nid == Identity.Individual
  · rw [if_pos h]
    exact Or.inl rfl
  · rw [if_neg h]
    exact Or.inr rfl

theorem c2_range (σ : Nat → Identity) (k : Node) :
    c2 σ k = Identity.Concept ∨ c2 σ k = Identity.ValueDomain := by
  unfold c2
  by_cases h : (σ k.nid == Identity.Role || σ k.nid == Identity.Concept)
  · rw [if_pos h]
    exact Or.inl rfl
  · rw [if_neg h]
    exact Or.inr rfl

theorem c3_range (σ : Nat → Identity) (k : Node) :
    c3 σ k = Identity.RoleInstance ∨ c3 σ k = Identity.AttributeInstance := by
  unfold c3
  by_cases h : σ k.nid == Identity.Role
  · rw [if_pos h]
    exact Or.inl rfl
  · rw [if_neg h]
    exact Or.inr rfl

end Eddy

namespace Eddy

theorem stored_eq_computed (n : Node) (ids : List Identity)
    (hneu : Identity.Neutral ∈ n.identities)
    (hin : ∀ x ∈ ids, x ∈ n.identities) :
    setIdentityVal n (computedIdentity ids) = computedIdentity ids := by
  rcases computedIdentity_cases ids with ⟨h0, hc⟩ | ⟨x, hx, hc⟩ | ⟨h2, hc⟩
  · rw [hc]
    exact setIdentityVal_mem n _ hneu
  · rw [hc]
    exact setIdentityVal_mem n x (hin x (by rw [hx]; exact List.mem_cons_self x []))
  · rw [hc]
    exact setIdentityVal_unknown n

/-! ## Claim C3: the Enumeration special case -/

/-- Claim C3: for an Enumeration node processed in the weak set, the
collected operands are exactly the Individual-kind nodes incoming over
Input edges; each operand maps by identity (Individual to Concept,
anything else to ValueDomain); the node's identity becomes Neutral / the
single mapped value / Unknown according to the size of the distinct mapped
set; if the result is not Neutral the node joins `strong`; and every
collected operand is removed from `strong`.  In particular an enumeration
node whose only Individual operand has identity Individual ends with
identity Concept and joins `strong` (see the witness). -/
theorem enumerationRuleCorrect (d : Diagram) (st : RState) (n : Node)
    (hkind : n.type = Item.EnumerationNode)
    (hnodup : (d.nodes.map (fun x => x.nid)).Nodup)
    (hmem : n ∈ d.nodes)
    (hneu : Identity.Neutral ∈ n.identities)
    (hcon : Identity.Concept ∈ n.identities)
    (hvd : Identity.ValueDomain ∈ n.identities) :
    (∀ k, k ∈ incomingNodes d n f1 f2
        ↔ (∃ e ∈ d.edges, e.type = Item.InputEdge ∧ e.target = n.nid
              ∧ nodeById d e.source = some k)
          ∧ k.type = Item.IndividualNode)
      ∧ (∀ k, c1 st.σ k
          = if st.σ k.nid = Identity.Individual then Identity.Concept
            else Identity.ValueDomain)
      ∧ (processWeakNode d st n).σ n.nid
          = computedIdentity (((incomingNodes d n f1 f2).map (c1 st.σ)).dedup)
      ∧ (computedIdentity (((incomingNodes d n f1 f2).map (c1 st.σ)).dedup)
            ≠ Identity.Neutral
          → n.nid ∈ (processWeakNode d st n).strong)
      ∧ (∀ k ∈ incomingNodes d n f1 f2, k.nid ∉ (processWeakNode d st n).strong) := by
  have hsep : ∀ k ∈ incomingNodes d n f1 f2, k.nid ≠ n.nid := by
    intro k hk heq
    have hkk := incomingNodes_mem_nodes d n f1 f2 k hk
    have hEq : k = n := nodes_nid_inj d hnodup k n hkk.1 hmem heq
    have hkind' : n.type = Item.IndividualNode := by
      have h2 := hkk.2
      rw [hEq] at h2
      exact beq_iff_eq.mp h2
    rw [hkind] at hkind'
    cases hkind'
  have hd := processWeakNode_enumeration d st n hkind
  refine ⟨?_, ?_, ?_, ?_, ?_⟩
  · intro k
    rw [mem_incomingNodes]
    constructor
    · rintro ⟨⟨e, he, hfe, ht, hl⟩, hfn⟩
      exact ⟨⟨e, he, beq_iff_eq.mp hfe, ht, hl⟩, beq_iff_eq.mp hfn⟩
    · rintro ⟨⟨e, he, hfe, ht, hl⟩, hfn⟩
      exact ⟨⟨e, he, beq_iff_eq.mpr hfe, ht, hl⟩, beq_iff_eq.mpr hfn⟩
  · intro k
    unfold c1
    by_cases h : st.σ k.nid = Identity.Individual
    · rw [if_pos (beq_iff_eq.mpr h), if_pos h]
    · rw [if_neg (fun hc => h (beq_iff_eq.mp hc)), if_neg h]
  · rw [hd, enumerationCase_σ, setIdentity_nid]
    apply stored_eq_computed n _ hneu
    intro x hx
    rcases List.mem_map.mp (List.mem_dedup.mp hx) with ⟨k, _, hk⟩
    rcases c1_range st.σ k with h | h
    · rw [← hk, h]
      exact hcon
    · rw [← hk, h]
      exact hvd
  · intro hne
    rw [hd, enumerationCase_strong, mem_foldl_discard]
    constructor
    · have hν : (enumerationCase d st n).σ n.nid ≠ Identity.Neutral := by
        rw [enumerationCase_σ, setIdentity_nid]
        exact setIdentityVal_ne_neutral n _ hne
      rw [if_neg (fun hb => hν (beq_iff_eq.mp hb))]
      exact (mem_addId st.strong n.nid n.nid).mpr (Or.inl rfl)
    · intro k hk heq
      exact hsep k hk heq.symm
  · intro k hk hmem'
    rw [hd, enumerationCase_strong, mem_foldl_discard] at hmem'
    exact hmem'.2 k hk rfl

/-- Claim C3 witness: in `exDiagramEnum` the enumeration node's only
Individual operand holds identity Individual; after processing, the node's
identity is Concept and the node joined the strong set. -/
theorem enumerationRuleCorrect_witness :
    (processWeakNode exDiagramEnum (initState exDiagramEnum exSigmaEnum exEnum)
        exEnum).σ exEnum.nid = Identity.Concept
      ∧ exEnum.nid ∈ (processWeakNode exDiagramEnum
          (initState exDiagramEnum exSigmaEnum exEnum) exEnum).strong := by
  have h := enumerationRuleCorrect exDiagramEnum
    (initState exDiagramEnum exSigmaEnum exEnum) exEnum rfl (by decide) (by decide)
    (by decide) (by decide) (by decide)
  constructor
  · rw [h.2.2.1]
    decide
  · exact h.2.2.2.1 (by decide)

end Eddy

namespace Eddy

/-! ## Claim C4: the RangeRestriction special case -/

theorem f4_iff (σ : Nat → Identity) (k : Node) :
    f4 σ k = true
      ↔ (σ k.nid = Identity.Role ∨ σ k.nid = Identity.Attribute
            ∨ σ k.nid = Identity.Concept)
        ∧ Identity.Neutral ∉ k.identities := by
  unfold f4
  simp only [Bool.and_eq_true, Bool.or_eq_true, beq_iff_eq, Bool.not_eq_true',
    or_assoc]
  constructor
  · rintro ⟨h1, h2⟩
    refine ⟨h1, fun hmem => ?_⟩
    have h' : k.identities.contains Identity.Neutral = true := List.elem_iff.mpr hmem
    rw [h'] at h2
    cases h2
  · rintro ⟨h1, h2⟩
    refine ⟨h1, ?_⟩
    rw [Bool.eq_false_iff]
    intro hc
    exact h2 (List.elem_iff.mp hc)

/-- Claim C4: for a RangeRestriction node processed in the weak set, the
collected Input-edge operands are exactly those whose current identity is
Role, Attribute or Concept and that are not themselves neutral-capable
(filter f4); each collected operand maps to Concept when its identity is
Role or Concept and to ValueDomain otherwise, so a lone Attribute-identity
operand maps to ValueDomain by fall-through; and the node's identity
becomes Neutral / the single mapped value / Unknown according to the size
of the distinct mapped set. -/
theorem rangeRestrictionRuleCorrect (d : Diagram) (st : RState) (n : Node)
    (hkind : n.type = Item.RangeRestrictionNode)
    (hneu : Identity.Neutral ∈ n.identities)
    (hcon : Identity.Concept ∈ n.identities)
    (hvd : Identity.ValueDomain ∈ n.identities) :
    (∀ k, k ∈ incomingNodes d n f1 (f4 st.σ)
        ↔ (∃ e ∈ d.edges, e.type = Item.InputEdge ∧ e.target = n.nid
              ∧ nodeById d e.source = some k)
          ∧ (st.σ k.nid = Identity.Role ∨ st.σ k.nid = Identity.Attribute
              ∨ st.σ k.nid = Identity.Concept)
          ∧ Identity.Neutral ∉ k.identities)
      ∧ (∀ k, c2 st.σ k
          = if st.σ k.nid = Identity.Role ∨ st.σ k.nid = Identity.Concept
            then Identity.Concept else Identity.ValueDomain)
      ∧ (∀ k, st.σ k.nid = Identity.Attribute → c2 st.σ k = Identity.ValueDomain)
      ∧ (processWeakNode d st n).σ n.nid
          = computedIdentity
              (((incomingNodes d n f1 (f4 st.σ)).map (c2 st.σ)).dedup) := by
  have hd := processWeakNode_rangeRestriction d st n hkind
  have hc2 : ∀ k, c2 st.σ k
      = if st.σ k.nid = Identity.Role ∨ st.σ k.nid = Identity.Concept
        then Identity.Concept else Identity.ValueDomain := by
    intro k
    unfold c2
    by_cases h : st.σ k.nid = Identity.Role ∨ st.σ k.nid = Identity.Concept
    · rw [if_pos h, if_pos]
      rw [Bool.or_eq_true]
      rcases h with h | h
      · exact Or.inl (beq_iff_eq.mpr h)
      · exact Or.inr (beq_iff_eq.mpr h)
    · rw [if_neg h, if_neg]
      intro hb
      rw [Bool.or_eq_true] at hb
      rcases hb with hb' | hb'
      · exact h (Or.inl (beq_iff_eq.mp hb'))
      · exact h (Or.inr (beq_iff_eq.mp hb'))
  refine ⟨?_, hc2, ?_, ?_⟩
  · intro k
    rw [mem_incomingNodes]
    constructor
    · rintro ⟨⟨e, he, hfe, ht, hl⟩, hfn⟩
      rcases (f4_iff st.σ k).mp hfn with ⟨hid, hcap⟩
      exact ⟨⟨e, he, beq_iff_eq.mp hfe, ht, hl⟩, hid, hcap⟩
    · rintro ⟨⟨e, he, hfe, ht, hl⟩, hid, hcap⟩
      exact ⟨⟨e, he, beq_iff_eq.mpr hfe, ht, hl⟩, (f4_iff st.σ k).mpr ⟨hid, hcap⟩⟩
  · intro k hA
    rw [hc2 k, if_neg]
    rw [hA]
    decide
  · rw [hd, rangeRestrictionCase_σ, setIdentity_nid]
    apply stored_eq_computed n _ hneu
    intro x hx
    rcases List.mem_map.mp (List.mem_dedup.mp hx) with ⟨k, _, hk⟩
    rcases c2_range st.σ k with h | h
    · rw [← hk, h]
      exact hcon
    · rw [← hk, h]
      exact hvd

/-- Claim C4 witness: a range restriction whose only candidate operand has
identity Attribute gets identity ValueDomain (the fall-through case). -/
theorem rangeRestrictionRuleCorrect_witness :
    (processWeakNode exDiagramRange
        (initState exDiagramRange exSigmaRange exRange) exRange).σ exRange.nid
        = Identity.ValueDomain
      ∧ c2 (initState exDiagramRange exSigmaRange exRange).σ exAttr
        = Identity.ValueDomain := by
  have h := rangeRestrictionRuleCorrect exDiagramRange
    (initState exDiagramRange exSigmaRange exRange) exRange rfl (by decide)
    (by decide) (by decide)
  constructor
  · rw [h.2.2.2]
    decide
  · exact h.2.2.1 exAttr (by decide)

/-! ## Claim C5: the PropertyAssertion special case -/

theorem computedIdentity_c3_ne_neutral (σ : Nat → Identity) (outg : List Node)
    (hne : ((outg.map (c3 σ)).dedup) ≠ []) :
    computedIdentity ((outg.map (c3 σ)).dedup) ≠ Identity.Neutral := by
  rcases computedIdentity_cases ((outg.map (c3 σ)).dedup) with
    ⟨h0, _⟩ | ⟨x, hx, hc⟩ | ⟨_, hc⟩
  · exact absurd h0 hne
  · rw [hc]
    have hxm : x ∈ (outg.map (c3 σ)).dedup := by
      rw [hx]
      exact List.mem_cons_self x []
    rcases List.mem_map.mp (List.mem_dedup.mp hxm) with ⟨k, _, hk⟩
    rcases c3_range σ k with h | h
    · rw [← hk, h]
      decide
    · rw [← hk, h]
      decide
  · rw [hc]
    decide

/-- Claim C5: for a PropertyAssertion node processed in the weak set: the
Membership-edge operands of kind Role, RoleInverse or Attribute are mapped
by identity (Role to RoleInstance, otherwise AttributeInstance) and, when
any exist, determine the computed identity (Unknown when more than one
distinct); only when that step left the identity Neutral and at least two
Individual-kind Input operands exist is the identity set to RoleInstance,
or AttributeInstance if at least one such operand has identity Value; the
node is unconditionally added to `excluded`; and its incoming Individual
operands are removed from `strong`. -/
theorem propertyAssertionRuleCorrect (d : Diagram) (st : RState) (n : Node)
    (hkind : n.type = Item.PropertyAssertionNode)
    (hneu : Identity.Neutral ∈ n.identities)
    (hri : Identity.RoleInstance ∈ n.identities)
    (hai : Identity.AttributeInstance ∈ n.identities) :
    (∀ k, c3 st.σ k
        = if st.σ k.nid = Identity.Role then Identity.RoleInstance
          else Identity.AttributeInstance)
      ∧ ((incomingNodes d n f1 f6).any (a1 st.σ) = true
          ↔ ∃ k ∈ incomingNodes d n f1 f6, st.σ k.nid = Identity.Value)
      ∧ ((((outgoingNodes d n f3 f5).map (c3 st.σ)).dedup) ≠ [] →
          (processWeakNode d st n).σ n.nid
            = computedIdentity (((outgoingNodes d n f3 f5).map (c3 st.σ)).dedup))
      ∧ ((((outgoingNodes d n f3 f5).map (c3 st.σ)).dedup) = [] →
          2 ≤ (incomingNodes d n f1 f6).length →
          (processWeakNode d st n).σ n.nid
            = (if (incomingNodes d n f1 f6).any (a1 st.σ)
               then Identity.AttributeInstance else Identity.RoleInstance))
      ∧ ((((outgoingNodes d n f3 f5).map (c3 st.σ)).dedup) = [] →
          (incomingNodes d n f1 f6).length < 2 →
          (processWeakNode d st n).σ n.nid = Identity.Neutral)
      ∧ n.nid ∈ (processWeakNode d st n).excluded
      ∧ (∀ k ∈ incomingNodes d n f1 f6,
          k.nid ∉ (processWeakNode d st n).strong) := by
  have hd := processWeakNode_propertyAssertion d st n hkind
  refine ⟨?_, ?_, ?_, ?_, ?_, ?_, ?_⟩
  · intro k
    unfold c3
    by_cases h : st.σ k.nid = Identity.Role
    · rw [if_pos (beq_iff_eq.mpr h), if_pos h]
    · rw [if_neg (fun hc => h (beq_iff_eq.mp hc)), if_neg h]
  · rw [List.any_eq_true]
    constructor
    · rintro ⟨k, hk, ha⟩
      exact ⟨k, hk, beq_iff_eq.mp ha⟩
    · rintro ⟨k, hk, ha⟩
      exact ⟨k, hk, beq_iff_eq.mpr ha⟩
  · intro hne
    rw [hd, propertyAssertionCase_σ, setIdentity_nid]
    have hcomp := computedIdentity_c3_ne_neutral st.σ (outgoingNodes d n f3 f5) hne
    unfold propertyAssertionComputed
    rw [if_neg]
    · apply stored_eq_computed n _ hneu
      intro x hx
      rcases List.mem_map.mp (List.mem_dedup.mp hx) with ⟨k, _, hk⟩
      rcases c3_range st.σ k with h | h
      · rw [← hk, h]
        exact hri
      · rw [← hk, h]
        exact hai
    · intro hb
      rw [Bool.and_eq_true] at hb
      exact hcomp (beq_iff_eq.mp hb.1)
  · intro hempty hlen
    rw [hd, propertyAssertionCase_σ, setIdentity_nid]
    unfold propertyAssertionComputed
    rw [hempty]
    rw [if_pos]
    · by_cases hany : (incomingNodes d n f1 f6).any (a1 st.σ)
      · rw [if_pos hany]
        exact setIdentityVal_mem n _ hai
      · rw [if_neg hany]
        exact setIdentityVal_mem n _ hri
    · rw [Bool.and_eq_true]
      exact ⟨rfl, decide_eq_true hlen⟩
  · intro hempty hlen
    rw [hd, propertyAssertionCase_σ, setIdentity_nid]
    unfold propertyAssertionComputed
    rw [hempty]
    rw [if_neg]
    · exact setIdentityVal_mem n _ hneu
    · rw [Bool.and_eq_true]
      rintro ⟨_, h2⟩
      exact absurd (of_decide_eq_true h2) (Nat.not_le.mpr hlen)
  · rw [hd, propertyAssertionCase_excluded]
    exact (mem_addId st.excluded n.nid n.nid).mpr (Or.inl rfl)
  · intro k hk hmem'
    rw [hd, propertyAssertionCase_strong, mem_foldl_discard] at hmem'
    exact hmem'.2 k hk rfl

/-- Claim C5 witness: a property assertion with two Individual-identity
Input operands and no Membership edge gets identity RoleInstance and is
excluded. -/
theorem propertyAssertionRuleCorrect_witness :
    (processWeakNode exDiagramPA (initState exDiagramPA exSigmaPA exAssertion)
        exAssertion).σ exAssertion.nid = Identity.RoleInstance
      ∧ exAssertion.nid ∈ (processWeakNode exDiagramPA
          (initState exDiagramPA exSigmaPA exAssertion) exAssertion).excluded := by
  have h := propertyAssertionRuleCorrect exDiagramPA
    (initState exDiagramPA exSigmaPA exAssertion) exAssertion rfl (by decide)
    (by decide) (by decide)
  constructor
  · have h4 := h.2.2.2.1 (by decide) (by decide)
    rw [h4]
    decide
  · exact h.2.2.2.2.2.1

end Eddy

namespace Eddy

/-! ## Claim C2: aggregate computation and final assignment -/

/-- Claim C2: after the special-case pass, the aggregate identity is
Neutral when the post-special-case strong set holds no distinct identity,
the single identity when it holds exactly one, and Unknown when it holds
two or more; and exactly the nodes in weak minus strong minus excluded are
assigned this aggregate (each through setIdentity, so the stored value is
the coerced setIdentityVal), every other node keeping its
post-special-case identity. -/
theorem aggregateAssignmentCorrect (d : Diagram) (σ : Nat → Identity)
    (start : Node)
    (hg : Identity.Neutral ∈ start.identities)
    (hnodup : (d.nodes.map (fun x => x.nid)).Nodup) :
    ((((afterSpecial d σ start).strong.map (afterSpecial d σ start).σ).dedup = [])
        → aggregateOf d σ start = Identity.Neutral)
      ∧ (∀ x,
          ((afterSpecial d σ start).strong.map (afterSpecial d σ start).σ).dedup
              = [x]
          → aggregateOf d σ start = x)
      ∧ (2 ≤ (((afterSpecial d σ start).strong.map
              (afterSpecial d σ start).σ).dedup).length
          → aggregateOf d σ start = Identity.Unknown)
      ∧ (∀ n ∈ finalTargets d σ start,
          doNodeIdentification d σ start n.nid
            = setIdentityVal n (aggregateOf d σ start))
      ∧ (∀ n ∈ d.nodes, n ∉ finalTargets d σ start →
          doNodeIdentification d σ start n.nid
            = (afterSpecial d σ start).σ n.nid) := by
  refine ⟨?_, ?_, ?_, ?_, ?_⟩
  · intro h
    unfold aggregateOf
    rw [h]
    rfl
  · intro x h
    unfold aggregateOf
    rw [h]
    rfl
  · intro h
    unfold aggregateOf
    rcases computedIdentity_cases
        (((afterSpecial d σ start).strong.map (afterSpecial d σ start).σ).dedup)
      with ⟨h0, hc⟩ | ⟨x, hx, hc⟩ | ⟨_, hc⟩
    · rw [h0] at h
      simp at h
    · rw [hx] at h
      simp at h
    · exact hc
  · intro n hn
    have ht : ((finalTargets d σ start).map (fun x => x.nid)).Nodup := by
      have hsub : List.Sublist (finalTargets d σ start) (weakOf d start) := by
        unfold finalTargets
        exact List.filter_sublist _
      exact List.Nodup.sublist (hsub.map _) (weakOf_nid_nodup d start)
    unfold doNodeIdentification
    rw [if_pos hg]
    exact foldl_setIdentity_write (aggregateOf d σ start) (finalTargets d σ start)
      ht _ n hn
  · intro n hn hnt
    unfold doNodeIdentification
    rw [if_pos hg]
    apply foldl_setIdentity_frame
    intro m hm heq
    have hmw := finalTargets_sub_weak d σ start m hm
    have hmnodes := mem_collectionOf_mem_nodes d start m
      ((mem_weakOf d start m).mp hmw).1
    have hmn : m = n := nodes_nid_inj d hnodup m n hmnodes hn heq
    rw [hmn] at hm
    exact hnt hm

/-- Claim C2 witness: in the union-concept example the post-special strong
set holds the single identity Concept, so the aggregate is Concept and the
union node receives it. -/
theorem aggregateAssignmentCorrect_witness :
    aggregateOf exDiagramUC exSigmaConcept exUnion = Identity.Concept
      ∧ doNodeIdentification exDiagramUC exSigmaConcept exUnion exUnion.nid
        = setIdentityVal exUnion (aggregateOf exDiagramUC exSigmaConcept exUnion) := by
  have h := aggregateAssignmentCorrect exDiagramUC exSigmaConcept exUnion
    (by decide) (by decide)
  constructor
  · exact h.2.1 Identity.Concept (by decide)
  · exact h.2.2.2.1 exUnion (by decide)

/-! ## Claim C6: the capability invariant -/

/-- Claim C6: for every graph and start node, if before the pass every
node of the collected set holds an identity inside its capability set or
Unknown, then after resolve returns the same holds: no visited node is
left with a value outside its capability set other than Unknown. -/
theorem identityInvariantPreserved (d : Diagram) (σ : Nat → Identity)
    (start : Node)
    (hpre : ∀ n ∈ collectionOf d start,
        σ n.nid ∈ n.identities ∨ σ n.nid = Identity.Unknown) :
    ∀ n ∈ collectionOf d start,
      doNodeIdentification d σ start n.nid ∈ n.identities
        ∨ doNodeIdentification d σ start n.nid = Identity.Unknown := by
  intro n hn
  rcases doNodeIdentification_sound d σ start n.nid with h | ⟨m, hm, hid, v, hv⟩
  · rw [h]
    exact hpre n hn
  · have hmn : m = n := collection_nid_inj d start m n
      ((mem_weakOf d start m).mp hm).1 hn hid
    rw [hv, hmn]
    exact setIdentityVal_sound n v

/-- Claim C6 witness: the invariant holds across the union-concept
example run. -/
theorem identityInvariantPreserved_witness :
    doNodeIdentification exDiagramUC exSigmaConcept exUnion exUnion.nid
        ∈ exUnion.identities
      ∨ doNodeIdentification exDiagramUC exSigmaConcept exUnion exUnion.nid
        = Identity.Unknown :=
  identityInvariantPreserved exDiagramUC exSigmaConcept exUnion
    (by decide) exUnion (by decide)

end Eddy

namespace Eddy

/-! ## Claim C8: idempotence machinery -/

theorem enumerationCase_excluded (d : Diagram) (st : RState) (n : Node) :
    (enumerationCase d st n).excluded = st.excluded := rfl

theorem rangeRestrictionCase_excluded (d : Diagram) (st : RState) (n : Node) :
    (rangeRestrictionCase d st n).excluded = st.excluded := rfl

theorem processWeakNode_other (d : Diagram) (st : RState) (n : Node)
    (h1 : n.type ≠ Item.EnumerationNode)
    (h2 : n.type ≠ Item.RangeRestrictionNode)
    (h3 : n.type ≠ Item.PropertyAssertionNode) :
    processWeakNode d st n = st := by
  unfold processWeakNode
  rw [if_neg (fun hb => h1 (beq_iff_eq.mp hb)),
    if_neg (fun hb => h2 (beq_iff_eq.mp hb)),
    if_neg (fun hb => h3 (beq_iff_eq.mp hb))]

theorem list_any_congr {α : Type} (l : List α) (p q : α → Bool)
    (h : ∀ x ∈ l, p x = q x) : l.any p = l.any q := by
  induction l with
  | nil => rfl
  | cons a t ih =>
    rw [List.any_cons, List.any_cons, h a (List.mem_cons_self a t),
      ih (fun x hx => h x (List.mem_cons_of_mem a hx))]

theorem f5_iff (k : Node) :
    f5 k = true
      ↔ (k.type = Item.RoleNode ∨ k.type = Item.RoleInverseNode
          ∨ k.type = Item.AttributeNode) := by
  unfold f5
  simp [Bool.or_eq_true, beq_iff_eq, or_assoc]

theorem weakId_not_of_capless (d : Diagram) (start : Node)
    (hnodup : (d.nodes.map (fun x => x.nid)).Nodup) (k : Node)
    (hk : k ∈ d.nodes) (hcap : neutralCapable k = false) :
    ¬∃ m ∈ weakOf d start, m.nid = k.nid := by
  rintro ⟨m, hm, hmi⟩
  have hmw := (mem_weakOf d start m).mp hm
  have hmn := mem_collectionOf_mem_nodes d start m hmw.1
  have hmk : m = k := nodes_nid_inj d hnodup m k hmn hk hmi
  rw [hmk] at hmw
  rw [hmw.2] at hcap
  cases hcap

theorem pairInv_agree_at (d : Diagram) (start : Node) (σa σb : Nat → Identity)
    (sa sb : RState)
    (hnodup : (d.nodes.map (fun x => x.nid)).Nodup)
    (hinv : PairInv d start σa σb sa sb) (k : Node) (hk : k ∈ d.nodes)
    (hcap : neutralCapable k = false) : sa.σ k.nid = sb.σ k.nid := by
  rcases hinv.2.2.1 k.nid with h | ⟨hw, _, _⟩
  · exact h
  · exact absurd hw (weakId_not_of_capless d start hnodup k hk hcap)

theorem c1_congr (σa σb : Nat → Identity) (k : Node)
    (hag : σa k.nid = σb k.nid) : c1 σa k = c1 σb k := by
  unfold c1
  rw [hag]

theorem c2_congr (σa σb : Nat → Identity) (k : Node)
    (hag : σa k.nid = σb k.nid) : c2 σa k = c2 σb k := by
  unfold c2
  rw [hag]

theorem c3_congr (σa σb : Nat → Identity) (k : Node)
    (hag : σa k.nid = σb k.nid) : c3 σa k = c3 σb k := by
  unfold c3
  rw [hag]

theorem a1_congr (σa σb : Nat → Identity) (k : Node)
    (hag : σa k.nid = σb k.nid) : a1 σa k = a1 σb k := by
  unfold a1
  rw [hag]

theorem f4_congr_at (σa σb : Nat → Identity) (k : Node)
    (h : neutralCapable k = true ∨ σa k.nid = σb k.nid) :
    f4 σa k = f4 σb k := by
  rcases h with h | h
  · have hc : k.identities.contains Identity.Neutral = true := h
    unfold f4
    rw [hc]
    simp
  · unfold f4
    rw [h]

theorem pairInv_step_write (d : Diagram) (start : Node)
    (σa σb : Nat → Identity) (sa sb : RState)
    (hinv : PairInv d start σa σb sa sb) (n : Node) {v : Identity}
    (sa' sb' : RState)
    (hσa : sa'.σ = setIdentity sa.σ n v)
    (hσb : sb'.σ = setIdentity sb.σ n v)
    (hstrong : sa'.strong = sb'.strong)
    (hsub : ∀ i ∈ sa'.strong, i = n.nid ∨ i ∈ sa.strong)
    (hexcl : sa'.excluded = sb'.excluded) :
    PairInv d start σa σb sa' sb' := by
  refine ⟨hstrong, hexcl, ?_, ?_⟩
  · intro i
    by_cases hi : i = n.nid
    · rw [hσa, hσb, hi, setIdentity_nid, setIdentity_nid]
      exact Or.inl rfl
    · rw [hσa, hσb, setIdentity_other sa.σ n v i hi,
        setIdentity_other sb.σ n v i hi]
      exact hinv.2.2.1 i
  · intro i hi hwi
    by_cases hieq : i = n.nid
    · rw [hσa, hσb, hieq, setIdentity_nid, setIdentity_nid]
    · rw [hσa, hσb, setIdentity_other sa.σ n v i hieq,
        setIdentity_other sb.σ n v i hieq]
      rcases hsub i hi with h | h
      · exact absurd h hieq
      · exact hinv.2.2.2 i h hwi

end Eddy

namespace Eddy

theorem processWeakNode_pairInv (d : Diagram) (start : Node)
    (σa σb : Nat → Identity)
    (hnodup : (d.nodes.map (fun x => x.nid)).Nodup)
    (hkinds : ∀ k ∈ d.nodes,
        (k.type = Item.IndividualNode ∨ k.type = Item.RoleNode
          ∨ k.type = Item.RoleInverseNode ∨ k.type = Item.AttributeNode)
        → neutralCapable k = false)
    (sa sb : RState)
    (hinv : PairInv d start σa σb sa sb) (n : Node) :
    PairInv d start σa σb (processWeakNode d sa n) (processWeakNode d sb n) := by
  by_cases h1 : n.type = Item.EnumerationNode
  · rw [processWeakNode_enumeration d sa n h1, processWeakNode_enumeration d sb n h1]
    have hmap : (incomingNodes d n f1 f2).map (c1 sa.σ)
        = (incomingNodes d n f1 f2).map (c1 sb.σ) := by
      apply List.map_congr_left
      intro k hk
      have hkk := incomingNodes_mem_nodes d n f1 f2 k hk
      have hcap : neutralCapable k = false :=
        hkinds k hkk.1 (Or.inl (beq_iff_eq.mp hkk.2))
      exact c1_congr sa.σ sb.σ k
        (pairInv_agree_at d start σa σb sa sb hnodup hinv k hkk.1 hcap)
    have hval :
        computedIdentity (((incomingNodes d n f1 f2).map (c1 sa.σ)).dedup)
          = computedIdentity (((incomingNodes d n f1 f2).map (c1 sb.σ)).dedup) := by
      rw [hmap]
    have hσnid : (enumerationCase d sa n).σ n.nid
        = (enumerationCase d sb n).σ n.nid := by
      rw [enumerationCase_σ, enumerationCase_σ, setIdentity_nid, setIdentity_nid,
        hval]
    have hstrong : (enumerationCase d sa n).strong
        = (enumerationCase d sb n).strong := by
      rw [enumerationCase_strong, enumerationCase_strong, hσnid, hinv.1]
    have hsub : ∀ i ∈ (enumerationCase d sa n).strong,
        i = n.nid ∨ i ∈ sa.strong := by
      intro i hi
      rw [enumerationCase_strong, mem_foldl_discard] at hi
      rcases hi with ⟨hi1, _⟩
      by_cases hcond : ((enumerationCase d sa n).σ n.nid == Identity.Neutral) = true
      · rw [if_pos hcond] at hi1
        exact Or.inr hi1
      · rw [if_neg hcond] at hi1
        rcases (mem_addId sa.strong n.nid i).mp hi1 with h | h
        · exact Or.inl h
        · exact Or.inr h
    exact pairInv_step_write d start σa σb sa sb hinv n
      (enumerationCase d sa n) (enumerationCase d sb n)
      (enumerationCase_σ d sa n)
      (by rw [enumerationCase_σ, ← hval])
      hstrong hsub
      (by rw [enumerationCase_excluded, enumerationCase_excluded, hinv.2.1])
  · by_cases h2 : n.type = Item.RangeRestrictionNode
    · rw [processWeakNode_rangeRestriction d sa n h2,
        processWeakNode_rangeRestriction d sb n h2]
      have hcoll : incomingNodes d n f1 (f4 sa.σ)
          = incomingNodes d n f1 (f4 sb.σ) := by
        unfold incomingNodes
        apply List.filter_congr
        intro k hk
        rcases List.mem_filterMap.mp hk with ⟨e, _, he⟩
        have hkn := (nodeById_mem d e.source k he).1
        apply f4_congr_at
        cases hc : neutralCapable k
        · exact Or.inr (pairInv_agree_at d start σa σb sa sb hnodup hinv k hkn hc)
        · exact Or.inl rfl
      have hmap : (incomingNodes d n f1 (f4 sa.σ)).map (c2 sa.σ)
          = (incomingNodes d n f1 (f4 sb.σ)).map (c2 sb.σ) := by
        rw [← hcoll]
        apply List.map_congr_left
        intro k hk
        have hkk := incomingNodes_mem_nodes d n f1 (f4 sa.σ) k hk
        have hf4 := (f4_iff sa.σ k).mp hkk.2
        have hcap : neutralCapable k = false := by
          rw [Bool.eq_false_iff]
          intro hc
          exact hf4.2 (List.elem_iff.mp hc)
        exact c2_congr sa.σ sb.σ k
          (pairInv_agree_at d start σa σb sa sb hnodup hinv k hkk.1 hcap)
      have hval :
          computedIdentity
              (((incomingNodes d n f1 (f4 sa.σ)).map (c2 sa.σ)).dedup)
            = computedIdentity
              (((incomingNodes d n f1 (f4 sb.σ)).map (c2 sb.σ)).dedup) := by
        rw [hmap]
      have hσnid : (rangeRestrictionCase d sa n).σ n.nid
          = (rangeRestrictionCase d sb n).σ n.nid := by
        rw [rangeRestrictionCase_σ, rangeRestrictionCase_σ, setIdentity_nid,
          setIdentity_nid, hval]
      have hstrong : (rangeRestrictionCase d sa n).strong
          = (rangeRestrictionCase d sb n).strong := by
        rw [rangeRestrictionCase_strong, rangeRestrictionCase_strong, hσnid,
          hinv.1, hcoll]
      have hsub : ∀ i ∈ (rangeRestrictionCase d sa n).strong,
          i = n.nid ∨ i ∈ sa.strong := by
        intro i hi
        rw [rangeRestrictionCase_strong, mem_foldl_discard] at hi
        rcases hi with ⟨hi1, _⟩
        by_cases hcond :
            ((rangeRestrictionCase d sa n).σ n.nid == Identity.Neutral) = true
        · rw [if_pos hcond] at hi1
          exact Or.inr hi1
        · rw [if_neg hcond] at hi1
          rcases (mem_addId sa.strong n.nid i).mp hi1 with h | h
          · exact Or.inl h
          · exact Or.inr h
      exact pairInv_step_write d start σa σb sa sb hinv n
        (rangeRestrictionCase d sa n) (rangeRestrictionCase d sb n)
        (rangeRestrictionCase_σ d sa n)
        (by rw [rangeRestrictionCase_σ, ← hval])
        hstrong hsub
        (by rw [rangeRestrictionCase_excluded, rangeRestrictionCase_excluded,
          hinv.2.1])
    · by_cases h3 : n.type = Item.PropertyAssertionNode
      · rw [processWeakNode_propertyAssertion d sa n h3,
          processWeakNode_propertyAssertion d sb n h3]
        have hmap : (outgoingNodes d n f3 f5).map (c3 sa.σ)
            = (outgoingNodes d n f3 f5).map (c3 sb.σ) := by
          apply List.map_congr_left
          intro k hk
          have hkk := outgoingNodes_mem_nodes d n f3 f5 k hk
          have hkt := (f5_iff k).mp hkk.2
          have hcap : neutralCapable k = false := by
            apply hkinds k hkk.1
            rcases hkt with h | h | h
            · exact Or.inr (Or.inl h)
            · exact Or.inr (Or.inr (Or.inl h))
            · exact Or.inr (Or.inr (Or.inr h))
          exact c3_congr sa.σ sb.σ k
            (pairInv_agree_at d start σa σb sa sb hnodup hinv k hkk.1 hcap)
        have hany : (incomingNodes d n f1 f6).any (a1 sa.σ)
            = (incomingNodes d n f1 f6).any (a1 sb.σ) := by
          apply list_any_congr
          intro k hk
          have hkk := incomingNodes_mem_nodes d n f1 f6 k hk
          have hcap : neutralCapable k = false :=
            hkinds k hkk.1 (Or.inl (beq_iff_eq.mp hkk.2))
          exact a1_congr sa.σ sb.σ k
            (pairInv_agree_at d start σa σb sa sb hnodup hinv k hkk.1 hcap)
        have hpc : propertyAssertionComputed d sa.σ n
            = propertyAssertionComputed d sb.σ n := by
          unfold propertyAssertionComputed
          rw [hmap, hany]
        have hstrong : (propertyAssertionCase d sa n).strong
            = (propertyAssertionCase d sb n).strong := by
          rw [propertyAssertionCase_strong, propertyAssertionCase_strong, hinv.1]
        have hsub : ∀ i ∈ (propertyAssertionCase d sa n).strong,
            i = n.nid ∨ i ∈ sa.strong := by
          intro i hi
          rw [propertyAssertionCase_strong, mem_foldl_discard] at hi
          exact Or.inr hi.1
        exact pairInv_step_write d start σa σb sa sb hinv n
          (propertyAssertionCase d sa n) (propertyAssertionCase d sb n)
          (propertyAssertionCase_σ d sa n)
          (by rw [propertyAssertionCase_σ, ← hpc])
          hstrong hsub
          (by rw [propertyAssertionCase_excluded, propertyAssertionCase_excluded,
            hinv.2.1])
      · rw [processWeakNode_other d sa n h1 h2 h3,
          processWeakNode_other d sb n h1 h2 h3]
        exact hinv

end Eddy

namespace Eddy

theorem foldl_pairInv (d : Diagram) (start : Node) (σa σb : Nat → Identity)
    (hnodup : (d.nodes.map (fun x => x.nid)).Nodup)
    (hkinds : ∀ k ∈ d.nodes,
        (k.type = Item.IndividualNode ∨ k.type = Item.RoleNode
          ∨ k.type = Item.RoleInverseNode ∨ k.type = Item.AttributeNode)
        → neutralCapable k = false) :
    ∀ (L : List Node) (sa sb : RState),
      PairInv d start σa σb sa sb →
      PairInv d start σa σb (L.foldl (processWeakNode d) sa)
        (L.foldl (processWeakNode d) sb) := by
  intro L
  induction L with
  | nil => intro sa sb h; exact h
  | cons a t ih =>
    intro sa sb h
    rw [List.foldl_cons, List.foldl_cons]
    exact ih _ _ (processWeakNode_pairInv d start σa σb hnodup hkinds sa sb h a)

theorem initState_pairInv (d : Diagram) (start : Node) (σa σb : Nat → Identity)
    (hagree : ∀ i, (¬∃ m ∈ weakOf d start, m.nid = i) → σa i = σb i) :
    PairInv d start σa σb (initState d σa start) (initState d σb start) := by
  refine ⟨rfl, rfl, ?_, ?_⟩
  · intro i
    by_cases hw : ∃ m ∈ weakOf d start, m.nid = i
    · exact Or.inr ⟨hw, rfl, rfl⟩
    · exact Or.inl (hagree i hw)
  · intro i hi hwi
    rcases List.mem_map.mp hi with ⟨s, hs, hsi⟩
    rcases hwi with ⟨m, hm, hmi⟩
    have hsc := (mem_strongNodesOf d start s).mp hs
    have hmc := (mem_weakOf d start m).mp hm
    have hms : m = s := collection_nid_inj d start m s hmc.1 hsc.1
      (hmi.trans hsi.symm)
    have hcontra := hsc.2
    rw [← hms] at hcontra
    rw [hmc.2] at hcontra
    cases hcontra

theorem resolve_congr (d : Diagram) (start : Node)
    (hnodup : (d.nodes.map (fun x => x.nid)).Nodup)
    (hkinds : ∀ k ∈ d.nodes,
        (k.type = Item.IndividualNode ∨ k.type = Item.RoleNode
          ∨ k.type = Item.RoleInverseNode ∨ k.type = Item.AttributeNode)
        → neutralCapable k = false)
    (σa σb : Nat → Identity)
    (hagree : ∀ i, (¬∃ m ∈ weakOf d start, m.nid = i) → σa i = σb i) :
    ∀ i, doNodeIdentification d σa start i = doNodeIdentification d σb start i
      ∨ (doNodeIdentification d σa start i = σa i
          ∧ doNodeIdentification d σb start i = σb i) := by
  intro i
  by_cases hg : Identity.Neutral ∈ start.identities
  · have hinv : PairInv d start σa σb (afterSpecial d σa start)
        (afterSpecial d σb start) := by
      unfold afterSpecial
      exact foldl_pairInv d start σa σb hnodup hkinds (weakOf d start) _ _
        (initState_pairInv d start σa σb hagree)
    have hstrongσ : ∀ j ∈ (afterSpecial d σa start).strong,
        (afterSpecial d σa start).σ j = (afterSpecial d σb start).σ j := by
      intro j hj
      by_cases hw : ∃ m ∈ weakOf d start, m.nid = j
      · exact hinv.2.2.2 j hj hw
      · rcases hinv.2.2.1 j with h | ⟨hw', _, _⟩
        · exact h
        · exact absurd hw' hw
    have hagg : aggregateOf d σa start = aggregateOf d σb start := by
      unfold aggregateOf
      rw [← hinv.1, List.map_congr_left hstrongσ]
    have htargets : finalTargets d σa start = finalTargets d σb start := by
      unfold finalTargets
      rw [hinv.1, hinv.2.1]
    unfold doNodeIdentification
    rw [if_pos hg, if_pos hg]
    by_cases hw : ∃ m ∈ weakOf d start, m.nid = i
    · by_cases ht : ∃ m ∈ finalTargets d σa start, m.nid = i
      · rcases ht with ⟨m, hm, hmi⟩
        left
        have hnd : ((finalTargets d σa start).map (fun x => x.nid)).Nodup := by
          have hsub : List.Sublist (finalTargets d σa start) (weakOf d start) := by
            unfold finalTargets
            exact List.filter_sublist _
          exact List.Nodup.sublist (hsub.map _) (weakOf_nid_nodup d start)
        rw [← hmi, ← htargets, ← hagg]
        rw [foldl_setIdentity_write (aggregateOf d σa start) _ hnd _ m hm,
          foldl_setIdentity_write (aggregateOf d σa start) _ hnd _ m hm]
      · have hfr : ∀ m ∈ finalTargets d σa start, m.nid ≠ i := by
          intro m hm heq
          exact ht ⟨m, hm, heq⟩
        have hfrb : ∀ m ∈ finalTargets d σb start, m.nid ≠ i := by
          rw [← htargets]
          exact hfr
        rw [foldl_setIdentity_frame _ _ _ _ hfr, foldl_setIdentity_frame _ _ _ _ hfrb]
        rcases hinv.2.2.1 i with h | ⟨_, h1, h2⟩
        · exact Or.inl h
        · exact Or.inr ⟨h1, h2⟩
    · have hfr : ∀ m ∈ finalTargets d σa start, m.nid ≠ i := by
        intro m hm heq
        exact hw ⟨m, finalTargets_sub_weak d σa start m hm, heq⟩
      have hfrb : ∀ m ∈ finalTargets d σb start, m.nid ≠ i := by
        rw [← htargets]
        exact hfr
      rw [foldl_setIdentity_frame _ _ _ _ hfr, foldl_setIdentity_frame _ _ _ _ hfrb]
      rcases hinv.2.2.1 i with h | ⟨hw', _, _⟩
      · exact Or.inl h
      · exact absurd hw' hw
  · right
    unfold doNodeIdentification
    rw [if_neg hg, if_neg hg]
    exact ⟨rfl, rfl⟩

/-! ## Claim C8: idempotence -/

/-- Claim C8: calling resolve twice in succession on the same graph and
start node, with no mutation in between, leaves every node id's identity
after the second call equal to its identity after the first call.  The
well-formedness hypotheses state that node ids are unique and that
Individual, Role, RoleInverse and Attribute nodes (the kinds whose current
identities the special cases read) are not neutral-capable, as their fixed
capability sets guarantee. -/
theorem resolveIdempotent (d : Diagram) (start : Node) (σ : Nat → Identity)
    (hnodup : (d.nodes.map (fun x => x.nid)).Nodup)
    (hkinds : ∀ k ∈ d.nodes,
        (k.type = Item.IndividualNode ∨ k.type = Item.RoleNode
          ∨ k.type = Item.RoleInverseNode ∨ k.type = Item.AttributeNode)
        → neutralCapable k = false) :
    ∀ i, doNodeIdentification d (doNodeIdentification d σ start) start i
        = doNodeIdentification d σ start i := by
  intro i
  have hagree : ∀ j, (¬∃ m ∈ weakOf d start, m.nid = j) →
      doNodeIdentification d σ start j = σ j := by
    intro j hj
    apply doNodeIdentification_frame
    intro m hm heq
    exact hj ⟨m, hm, heq⟩
  rcases resolve_congr d start hnodup hkinds (doNodeIdentification d σ start) σ
      hagree i with h | ⟨h1, _⟩
  · exact h
  · exact h1

/-- Claim C8 witness: idempotence on the enumeration example at the
enumeration node's id. -/
theorem resolveIdempotent_witness :
    doNodeIdentification exDiagramEnum
        (doNodeIdentification exDiagramEnum exSigmaEnum exEnum) exEnum 0
      = doNodeIdentification exDiagramEnum exSigmaEnum exEnum 0 :=
  resolveIdempotent exDiagramEnum exEnum exSigmaEnum (by decide) (by decide) 0

end Eddy
